import Mathlib

/-!
# Verification of the datahub-infa-autosys lineage core

A shallow embedding, in Lean 4, of the lineage-resolution core of the
repository:

* `informatica_lineage.py` — the Informatica PowerCenter lineage builder
  (`SQLLineageParser`, `LineageBuilder`, `DataHubLineageEmitter`);
* `examples/essbase-datahub-connector/.../calc_extractor.py` — the
  Essbase calc-script FIX-context stack;
* `examples/essbase-datahub-connector/.../lineage_extractor.py` — the
  consolidation-hierarchy lineage synthesizer.

Python dictionaries are modelled as insertion-ordered association lists
(`List (String × α)`; first occurrence wins on lookup, as Python keys are
unique), Python sets as insertion-ordered duplicate-free lists, floats as
rationals, and `None`-able values as `Option`.  Recursive traversals that
Python bounds with a mutable `visited` set are modelled with an explicit
fuel parameter; theorems show the chosen fuel is irrelevant (the result is
stable under additional fuel) where the claim concerns termination.
-/

namespace InfaLineage

/-! ## Association-list utilities (Python `dict` model) -/

/-- `d.get(k)`: first binding for `k`, if any. -/
def assocGet {α : Type} (k : String) : List (String × α) → Option α
  | [] => none
  | (k', v) :: rest => if k' = k then some v else assocGet k rest

/-- `d[k] = f(d.get(k, dflt))` where a missing key is appended at the end
(Python dicts preserve insertion order). -/
def assocUpdate {α : Type} (k : String) (f : α → α) (dflt : α) :
    List (String × α) → List (String × α)
  | [] => [(k, f dflt)]
  | (k', v) :: rest =>
      if k' = k then (k', f v) :: rest else (k', v) :: assocUpdate k f dflt rest

/-- Modify the value at an existing key, leaving the list unchanged when the
key is absent. -/
def assocModify {α : Type} (k : String) (f : α → α) :
    List (String × α) → List (String × α)
  | [] => []
  | (k', v) :: rest =>
      if k' = k then (k', f v) :: rest else (k', v) :: assocModify k f rest

/-- Python `set.add` on an insertion-ordered duplicate-free list. -/
def setAdd (l : List String) (x : String) : List String :=
  if x ∈ l then l else l ++ [x]

theorem assocGet_assocUpdate_self {α : Type} (k : String) (f : α → α) (d : α)
    (l : List (String × α)) :
    assocGet k (assocUpdate k f d l) = some (f ((assocGet k l).getD d)) := by
  induction l with
  | nil => simp [assocUpdate, assocGet]
  | cons hd tl ih =>
      obtain ⟨k', v⟩ := hd
      by_cases h : k' = k
      · simp [assocUpdate, assocGet, h]
      · simp [assocUpdate, assocGet, h, ih]

theorem assocGet_assocUpdate_ne {α : Type} {k k' : String} (f : α → α) (d : α)
    (l : List (String × α)) (h : k ≠ k') :
    assocGet k' (assocUpdate k f d l) = assocGet k' l := by
  induction l with
  | nil => simp [assocUpdate, assocGet, h]
  | cons hd tl ih =>
      obtain ⟨k'', v⟩ := hd
      by_cases hk : k'' = k
      · subst hk
        simp [assocUpdate, assocGet, h]
      · simp [assocUpdate, assocGet, hk, ih]

theorem assocGet_assocModify_self {α : Type} (k : String) (f : α → α)
    (l : List (String × α)) :
    assocGet k (assocModify k f l) = (assocGet k l).map f := by
  induction l with
  | nil => simp [assocModify, assocGet]
  | cons hd tl ih =>
      obtain ⟨k', v⟩ := hd
      by_cases h : k' = k
      · simp [assocModify, assocGet, h]
      · simp [assocModify, assocGet, h, ih]

theorem assocGet_assocModify_ne {α : Type} {k k' : String} (f : α → α)
    (l : List (String × α)) (h : k ≠ k') :
    assocGet k' (assocModify k f l) = assocGet k' l := by
  induction l with
  | nil => simp [assocModify]
  | cons hd tl ih =>
      obtain ⟨k'', v⟩ := hd
      by_cases hk : k'' = k
      · subst hk
        simp [assocModify, assocGet, h]
      · simp [assocModify, assocGet, hk, ih]

/-! ## Data model (`informatica_lineage.py`, Data Models section) -/

/-- `TransformationType` enum. -/
inductive TransformationType where
  | SOURCE_DEFINITION
  | SOURCE_QUALIFIER
  | TARGET_DEFINITION
  | EXPRESSION
  | FILTER
  | AGGREGATOR
  | JOINER
  | LOOKUP
  | ROUTER
  | SORTER
  | SEQUENCE_GENERATOR
  | NORMALIZER
  | RANK
  | UNION
  | UPDATE_STRATEGY
  | STORED_PROCEDURE
  | CUSTOM_TRANSFORMATION
  | UNKNOWN
  deriving DecidableEq, Repr

/-- `FieldInfo` (the attributes used by the lineage core). -/
structure FieldInfo where
  name : String
  datatype : String
  expression : Option String := none
  deriving DecidableEq, Repr

/-- `ConnectorInfo`: a CONNECTOR element linking fields between instances. -/
structure ConnectorInfo where
  from_instance : String
  from_instance_type : String
  from_field : String
  to_instance : String
  to_instance_type : String
  to_field : String
  deriving DecidableEq, Repr

/-- `TransformationInfo` (the attributes used by the lineage core). -/
structure TransformationInfo where
  name : String
  type : TransformationType
  fields : List (String × FieldInfo) := []
  sql_query : Option String := none
  stored_proc_name : Option String := none
  stored_proc_schema : Option String := none
  deriving DecidableEq, Repr

/-- `SourceDefinition` (the attributes used by the lineage core). -/
structure SourceDefinition where
  name : String
  owner_name : Option String := none
  fields : List (String × FieldInfo) := []
  deriving DecidableEq, Repr

/-- `TargetDefinition` (the attributes used by the lineage core). -/
structure TargetDefinition where
  name : String
  owner_name : Option String := none
  fields : List (String × FieldInfo) := []
  deriving DecidableEq, Repr

/-- `InstanceInfo`: an INSTANCE element within a mapping. -/
structure InstanceInfo where
  name : String
  transformation_name : String
  transformation_type : TransformationType
  reusable : Bool := false
  deriving DecidableEq, Repr

/-- `MappingInfo`. -/
structure MappingInfo where
  name : String
  instances : List (String × InstanceInfo) := []
  connectors : List ConnectorInfo := []
  transformations : List (String × TransformationInfo) := []
  deriving DecidableEq, Repr

/-- `FolderInfo` (the attributes used by the lineage core). -/
structure FolderInfo where
  name : String
  sources : List (String × SourceDefinition) := []
  targets : List (String × TargetDefinition) := []
  transformations : List (String × TransformationInfo) := []
  deriving DecidableEq, Repr

/-- `ColumnLineageEdge`: a single column-to-column lineage relationship.
`confidence_score` is the Python float, modelled as a rational. -/
structure ColumnLineageEdge where
  source_dataset : String
  source_column : String
  target_dataset : String
  target_column : String
  transformation_type : TransformationType
  transformation_expression : Option String := none
  confidence_score : ℚ := 1
  step_order : Nat := 0
  deriving DecidableEq, Repr

/-- `TransformationStep`: one step in an ordered transformation chain. -/
structure TransformationStep where
  step_order : Nat
  instance_name : String
  transformation_type : TransformationType
  input_fields : List (String × String)
  output_fields : List (String × String)
  expression : Option String := none
  deriving DecidableEq, Repr

/-! ## `SQLLineageParser.detect_stored_procedure_call`

The four regular expressions

* `CALL\s+(?:(\w+)\.)?(\w+)\s*\(`
* `EXECUTE\s+(?:(\w+)\.)?(\w+)\s*`
* `BEGIN\s+(?:(\w+)\.)?(\w+)\s*\(`
* `{\s*call\s+(?:(\w+)\.)?(\w+)\s*\(`

are applied with `re.search` (leftmost occurrence) and `re.IGNORECASE`,
tried in this order, the first matching pattern winning.  They are
embedded as specialised matchers.  Because `\w`, `\s`, `.` and `(` are
pairwise disjoint character classes, the regex backtracking collapses to
maximal-munch word/space runs, which is what the matchers implement. -/

/-- Python regex `\w` on ASCII input. -/
def isWordChar (c : Char) : Bool := c.isAlphanum || c = '_'

/-- Python regex `\s` on ASCII input. -/
def isSpaceChar (c : Char) : Bool :=
  c = ' ' || c = '\t' || c = '\n' || c = '\r' || c = '\x0b' || c = '\x0c'

/-- Case-insensitive literal match at the head of the input
(`re.IGNORECASE` on ASCII); returns the remainder on success. -/
def matchKeyword : List Char → List Char → Option (List Char)
  | [], cs => some cs
  | _ :: _, [] => none
  | k :: ks, c :: cs => if k.toLower = c.toLower then matchKeyword ks cs else none

/-- Regex fragment `\s*\(` at the head of the input. -/
def parenAfter (cs : List Char) : Bool :=
  match cs.dropWhile isSpaceChar with
  | '(' :: _ => true
  | _ => false

/-- Regex fragment `(?:(\w+)\.)?(\w+)\s*\(` (when `needParen`) or
`(?:(\w+)\.)?(\w+)\s*` (otherwise) at a fixed position.  A missing group 1
is reported as the empty schema, mirroring `match.group(1) or ""`. -/
def matchTail (needParen : Bool) (cs : List Char) : Option (String × String) :=
  let w1 := cs.takeWhile isWordChar
  if w1.isEmpty then none
  else
    match cs.drop w1.length with
    | '.' :: rest2 =>
        let w2 := rest2.takeWhile isWordChar
        if w2.isEmpty then
          -- the dotted group fails; skipping it leaves group 2 = w1
          -- followed by '.', acceptable only when no '(' is required
          if needParen then none else some ("", String.mk w1)
        else
          if needParen then
            if parenAfter (rest2.drop w2.length) then
              some (String.mk w1, String.mk w2)
            else none
          else some (String.mk w1, String.mk w2)
    | rest =>
        if needParen then
          if parenAfter rest then some ("", String.mk w1) else none
        else some ("", String.mk w1)

/-- Patterns 1-3: keyword, `\s+`, then the common tail. -/
def matchKwAt (kw : List Char) (needParen : Bool) (cs : List Char) :
    Option (String × String) :=
  match matchKeyword kw cs with
  | none => none
  | some rest =>
      let sp := rest.takeWhile isSpaceChar
      if sp.isEmpty then none
      else matchTail needParen (rest.drop sp.length)

/-- Pattern 4: `{\s*call\s+(?:(\w+)\.)?(\w+)\s*\(`. -/
def matchOdbcAt (cs : List Char) : Option (String × String) :=
  match cs with
  | '{' :: rest =>
      let rest2 := rest.dropWhile isSpaceChar
      match matchKeyword ['c', 'a', 'l', 'l'] rest2 with
      | none => none
      | some rest3 =>
          let sp := rest3.takeWhile isSpaceChar
          if sp.isEmpty then none
          else matchTail true (rest3.drop sp.length)
  | _ => none

/-- `re.search`: try the matcher at every position, leftmost success wins. -/
def scanWith (m : List Char → Option (String × String)) :
    List Char → Option (String × String)
  | [] => m []
  | c :: rest =>
      match m (c :: rest) with
      | some r => some r
      | none => scanWith m rest

/-- `SQLLineageParser.detect_stored_procedure_call`. -/
def detectStoredProcedureCall (sql : String) : Option (String × String) :=
  let cs := sql.data
  match scanWith (matchKwAt "CALL".data true) cs with
  | some r => some r
  | none =>
  match scanWith (matchKwAt "EXECUTE".data false) cs with
  | some r => some r
  | none =>
  match scanWith (matchKwAt "BEGIN".data true) cs with
  | some r => some r
  | none => scanWith matchOdbcAt cs

/-! ## `SQLLineageParser._parse_with_sqlglot` column resolution

`sqlglot` is an external library; the parse tree it returns is taken as
abstract input (`TableRef`, `ColumnRef`, `SelectExpr`), while the
resolution logic of `_parse_with_sqlglot` (lines 633-698) and
`_resolve_column_table` is embedded faithfully. -/

/-- Python's `str.upper()` on ASCII input (computable in the kernel,
unlike `String.toUpper`). -/
def strUpper (s : String) : String := String.mk (s.data.map Char.toUpper)

/-- Python's `str.endswith` (computable in the kernel, unlike
`String.endsWith`). -/
def strEndsWith (s suffix : String) : Bool := suffix.data.isSuffixOf s.data

/-- A table reference in the FROM/JOIN clause as produced by the external
SQL parser: `sqlglot` reports a missing alias as the empty string. -/
structure TableRef where
  name : String
  tableAlias : String := ""
  deriving DecidableEq, Repr

/-- A column reference inside a SELECT expression: `sqlglot` reports a
missing table qualifier as the empty string. -/
structure ColumnRef where
  name : String
  table : String := ""
  deriving DecidableEq, Repr

/-- One SELECT expression: its output column name and the column
references appearing in it. -/
structure SelectExpr where
  output_col : String
  columns : List ColumnRef
  expr_text : String
  deriving DecidableEq, Repr

/-- Lines 638-646: the first known table equal to the name
(case-insensitively) or schema-qualified by it. -/
def matchKnownTable (tableName : String) (known : List String) :
    Option String :=
  known.find? (fun kt =>
    strUpper kt = strUpper tableName ||
      strEndsWith (strUpper kt) ("." ++ strUpper tableName))

/-- Lines 633-651: the `source_refs` dict, keyed by upper-cased alias. -/
def buildSourceRefs (tables : List TableRef) (known : List String) :
    List (String × String) :=
  tables.foldl (fun refs t =>
    let al := if t.tableAlias = "" then t.name else t.tableAlias
    assocUpdate (strUpper al)
      (fun _ => (matchKnownTable t.name known).getD t.name) t.name refs) []

/-- `SQLLineageParser._resolve_column_table` candidate list: one entry per
known-table field whose name matches the column case-insensitively. -/
def resolveColumnTableCandidates (columnName : String)
    (sourceTables : List (String × List String)) : List String :=
  sourceTables.flatMap (fun tf =>
    (tf.2.filter (fun f => strUpper f = strUpper columnName)).map
      (fun _ => tf.1))

/-- `SQLLineageParser._resolve_column_table`: resolve only when exactly one
candidate exists. -/
def resolveColumnTable (columnName : String)
    (sourceTables : List (String × List String)) : Option String :=
  match resolveColumnTableCandidates columnName sourceTables with
  | [c] => some c
  | _ => none

/-- Lines 670-688 of `_parse_with_sqlglot`: resolve one column reference to
a table, or exclude it (`none`). -/
def resolveColumn (col : ColumnRef) (sourceRefs : List (String × String))
    (sourceTables : List (String × List String)) : Option String :=
  if col.table = "" then
    match sourceRefs with
    | [r] => some r.2
    | _ => resolveColumnTable col.name sourceTables
  else
    match assocGet (strUpper col.table) sourceRefs with
    | some resolved => some resolved
    | none => some (strUpper col.table)

/-- Lines 666-698: the `(table, column)` upstream pairs of one SELECT
expression (excluded references contribute nothing). -/
def projectionUpstreams (se : SelectExpr) (sourceRefs : List (String × String))
    (sourceTables : List (String × List String)) : List (String × String) :=
  se.columns.filterMap (fun c =>
    (resolveColumn c sourceRefs sourceTables).map (fun t => (t, c.name)))

/-! ## `LineageBuilder` -/

/-- The nested dict built by `LineageBuilder._build_instance_graph`:
`Dict[to_instance][to_field] -> List[(from_instance, from_field)]`. -/
abbrev InstanceGraph := List (String × List (String × List (String × String)))

/-- `LineageBuilder._build_instance_graph`: group connectors by
(to-instance, to-field), appending `(from_instance, from_field)` pairs in
connector order with no duplicate check. -/
def buildInstanceGraph (connectors : List ConnectorInfo) : InstanceGraph :=
  connectors.foldl (fun g c =>
    assocUpdate c.to_instance
      (assocUpdate c.to_field (fun l => l ++ [(c.from_instance, c.from_field)]) [])
      [] g) []

/-- `instance_graph.get(target_instance, {}).get(target_field, [])`. -/
def graphLookup (g : InstanceGraph) (ti tf : String) : List (String × String) :=
  match assocGet ti g with
  | none => []
  | some inner => (assocGet tf inner).getD []

/-- `LineageBuilder._get_transformation`: mapping-level transformations
first, then folder-level reusable ones. -/
def getTransformation (fo : FolderInfo) (m : MappingInfo)
    (inst : InstanceInfo) : Option TransformationInfo :=
  match assocGet inst.transformation_name m.transformations with
  | some t => some t
  | none => assocGet inst.transformation_name fo.transformations

/-- The `f"{instance}.{field}"` visited-set key of
`_trace_field_lineage` and `_find_source_for_instance`. -/
def visitKey (inst fieldName : String) : String := inst ++ "." ++ fieldName

/-- The expression attached to a trace step (`_trace_field_lineage` lines
860-865): the field's expression on the instance's transformation. -/
def traceExpr (fo : FolderInfo) (m : MappingInfo) (info : InstanceInfo)
    (tf : String) : Option String :=
  match getTransformation fo m info with
  | some tinfo =>
      match assocGet tf tinfo.fields with
      | some fi => fi.expression
      | none => none
  | none => none

/-- The `for from_inst, from_field in upstream_fields:` loop of
`_trace_field_lineage`: trace each upstream pair in order, threading the
visited set, concatenating the returned steps. -/
def traceSiblings
    (rec : String → String → List String →
      List TransformationStep × List String) :
    List (String × String) → List String →
      List TransformationStep × List String
  | [], vis => ([], vis)
  | p :: rest, vis =>
      let r1 := rec p.1 p.2 vis
      let r2 := traceSiblings rec rest r1.2
      (r1.1 ++ r2.1, r2.2)

/-- `LineageBuilder._trace_field_lineage`, with the mutable `visited` set
threaded through, and the recursion depth bounded by an explicit fuel
parameter (Python needs none because the visited set is finite; the
theorems below show the default fuel is never exhausted: adding fuel
never changes the result). -/
def traceAux (fuel : Nat) (fo : FolderInfo) (m : MappingInfo)
    (g : InstanceGraph) : String → String → List String → Nat →
      List TransformationStep × List String :=
  match fuel with
  | 0 => fun _ _ visited _ => ([], visited)
  | fuel + 1 => fun ti tf visited so =>
      let key := visitKey ti tf
      if key ∈ visited then ([], visited)
      else
        let vis1 := key :: visited
        match assocGet ti m.instances with
        | none => ([], vis1)
        | some info =>
            let ups := graphLookup g ti tf
            let step : TransformationStep :=
              ⟨so, ti, info.transformation_type, ups, [(ti, tf)],
                traceExpr fo m info tf⟩
            let res := traceSiblings
              (fun fi ff v => traceAux fuel fo m g fi ff v (so + 1))
              ups vis1
            (step :: res.1, res.2)

/-- Default fuel: the recursion adds a fresh key to `visited` at every
level, and every key below the top one comes from a connector, so the
depth never exceeds `connectors.length + 1`. -/
def defaultTraceFuel (m : MappingInfo) : Nat := m.connectors.length + 2

/-- `LineageBuilder._trace_field_lineage` as called from
`build_mapping_lineage`: fresh visited set, `step_order = 0`. -/
def traceFieldLineage (fo : FolderInfo) (m : MappingInfo) (ti tf : String)
    (g : InstanceGraph) : List TransformationStep :=
  (traceAux (defaultTraceFuel m) fo m g ti tf [] 0).1

/-- `LineageBuilder.build_mapping_lineage`: one traced chain per
(target instance, target field), keyed `f"{target_name}.{field_name}"`
(dict semantics: a repeated key overwrites in place). -/
def buildMappingLineage (fo : FolderInfo) (m : MappingInfo) :
    List (String × List TransformationStep) :=
  let g := buildInstanceGraph m.connectors
  let targetInstances := (m.instances.map Prod.snd).filter
    (fun i => i.transformation_type = TransformationType.TARGET_DEFINITION)
  targetInstances.foldl (fun chains ti =>
    match assocGet ti.transformation_name fo.targets with
    | none => chains
    | some tdef =>
        (tdef.fields.map Prod.fst).foldl (fun chains fieldName =>
          let chain := traceFieldLineage fo m ti.name fieldName g
          if chain.isEmpty then chains
          else
            assocUpdate (ti.transformation_name ++ "." ++ fieldName)
              (fun _ => chain) chain chains) chains) []

/-- `LineageBuilder._build_source_dataset_name` (`if source.owner_name:`
treats `None` and the empty string as absent). -/
def buildSourceDatasetName (sd : SourceDefinition) : String :=
  match sd.owner_name with
  | some o => if o = "" then sd.name else o ++ "." ++ sd.name
  | none => sd.name

/-- `LineageBuilder._build_target_dataset_name`. -/
def buildTargetDatasetName (td : TargetDefinition) : String :=
  match td.owner_name with
  | some o => if o = "" then td.name else o ++ "." ++ td.name
  | none => td.name

/-- `LineageBuilder._find_source_for_instance`: breadth-first walk over
the connectors back to a Source Definition, with a FIFO queue and a
visited set; fuel-bounded as above. -/
def findSourceAux (fo : FolderInfo) (m : MappingInfo) :
    Nat → List (String × String) → List String → Option (String × String)
  | 0, _, _ => none
  | _ + 1, [], _ => none
  | fuel + 1, (ci, cf) :: rest, visited =>
      let key := visitKey ci cf
      if key ∈ visited then findSourceAux fo m fuel rest visited
      else
        let vis := key :: visited
        match assocGet ci m.instances with
        | none => findSourceAux fo m fuel rest vis
        | some inst =>
            let found : Option (String × String) :=
              if inst.transformation_type = TransformationType.SOURCE_DEFINITION
              then
                match assocGet inst.transformation_name fo.sources with
                | some sd => some (buildSourceDatasetName sd, cf)
                | none => none
              else none
            match found with
            | some r => some r
            | none =>
                let pushes := (m.connectors.filter (fun c =>
                  c.to_instance == ci && c.to_field == cf)).map
                  (fun c => (c.from_instance, c.from_field))
                findSourceAux fo m fuel (rest ++ pushes) vis

/-- Fuel for `_find_source_for_instance`: at most `connectors + 1` keys
are ever marked visited, each visit enqueues at most `connectors` pairs,
so `(connectors + 2)²` iterations always drain the queue. -/
def findSourceFuel (m : MappingInfo) : Nat :=
  (m.connectors.length + 2) * (m.connectors.length + 2)

/-- `LineageBuilder._find_source_for_instance`. -/
def findSourceForInstance (fo : FolderInfo) (m : MappingInfo)
    (instanceName fieldName : String) : Option (String × String) :=
  findSourceAux fo m (findSourceFuel m) [(instanceName, fieldName)] []

/-- The result rows of the external `SQLLineageParser.parse_sql`
(`sqlglot`-backed, an external collaborator): a list of
`(upstream_columns, downstream_column, expression)` tuples. -/
abbrev SqlParseResult := List (List (String × String) × String × Option String)

/-- `LineageBuilder._parse_sql_lineage`.  `sqlParse` abstracts the
external `self.sql_parser.parse_sql(sql, source_tables)` call; the
stored-procedure short-circuit and the per-row edge synthesis are
embedded faithfully. -/
def parseSqlLineage (sqlParse : String → SqlParseResult) (fo : FolderInfo)
    (sql : String) (targetTable targetCol : String)
    (step : TransformationStep) : List ColumnLineageEdge :=
  match detectStoredProcedureCall sql with
  | some (schema, procName) =>
      [{ source_dataset :=
           if schema = "" then procName else schema ++ "." ++ procName
         source_column := "*"
         target_dataset := targetTable
         target_column := targetCol
         transformation_type := TransformationType.STORED_PROCEDURE
         transformation_expression :=
           some (if schema = "" then "CALL " ++ procName
             else "CALL " ++ schema ++ "." ++ procName)
         step_order := step.step_order }]
  | none =>
      (sqlParse sql).flatMap (fun row =>
        if strUpper row.2.1 = strUpper targetCol then
          row.1.filterMap (fun tc =>
            match assocGet tc.1 fo.sources with
            | some sourceDef =>
                some { source_dataset := buildSourceDatasetName sourceDef
                       source_column := tc.2
                       target_dataset := targetTable
                       target_column := targetCol
                       transformation_type := TransformationType.SOURCE_QUALIFIER
                       transformation_expression := row.2.2
                       step_order := step.step_order
                       confidence_score := 19 / 20 }
            | none => none)
        else [])

/-- `LineageBuilder._build_stored_proc_lineage` (`if trans and
trans.stored_proc_name:` treats `None` and `""` as absent; `schema =
trans.stored_proc_schema or ""`). -/
def buildStoredProcLineage (trans : Option TransformationInfo)
    (targetTable targetCol : String) (step : TransformationStep) :
    List ColumnLineageEdge :=
  match trans with
  | none => []
  | some t =>
      match t.stored_proc_name with
      | none => []
      | some procName =>
          if procName = "" then []
          else
            let schema := t.stored_proc_schema.getD ""
            [{ source_dataset :=
                 if schema = "" then procName else schema ++ "." ++ procName
               source_column := "*"
               target_dataset := targetTable
               target_column := targetCol
               transformation_type := TransformationType.STORED_PROCEDURE
               transformation_expression :=
                 some (if schema = "" then "EXEC " ++ procName
                   else "EXEC " ++ schema ++ "." ++ procName)
               step_order := step.step_order }]

/-- Python's `target_field_key.split(".", 1)` (the key always contains a
dot by construction). -/
def splitFirstDot (s : String) : String × String :=
  let cs := s.data
  let pre := cs.takeWhile (fun c => c ≠ '.')
  (String.mk pre, String.mk (cs.drop (pre.length + 1)))

/-- The Source Definition branch of `build_column_lineage_edges`: one
edge per step input pair, default confidence 1.0. -/
def sourceDefinitionEdges (sourceDef : SourceDefinition)
    (tdef : TargetDefinition) (targetCol : String)
    (step : TransformationStep) : List ColumnLineageEdge :=
  step.input_fields.map (fun ffp =>
    { source_dataset := buildSourceDatasetName sourceDef
      source_column := ffp.2
      target_dataset := buildTargetDatasetName tdef
      target_column := targetCol
      transformation_type := step.transformation_type
      transformation_expression := step.expression
      step_order := step.step_order })

/-- The standard-transformation branch of `build_column_lineage_edges`:
trace each input pair back to a source, default confidence 1.0. -/
def standardStepEdges (fo : FolderInfo) (m : MappingInfo)
    (tdef : TargetDefinition) (targetCol : String)
    (step : TransformationStep) : List ColumnLineageEdge :=
  step.input_fields.filterMap (fun ffp =>
    match findSourceForInstance fo m ffp.1 ffp.2 with
    | some si =>
        some { source_dataset := si.1
               source_column := si.2
               target_dataset := buildTargetDatasetName tdef
               target_column := targetCol
               transformation_type := step.transformation_type
               transformation_expression := step.expression
               step_order := step.step_order }
    | none => none)

/-- The per-step body of `LineageBuilder.build_column_lineage_edges`: the
branch dispatch over the step's instance type. -/
def stepEdges (sqlParse : String → SqlParseResult) (fo : FolderInfo)
    (m : MappingInfo) (targetTable targetCol : String)
    (tdef : TargetDefinition) (step : TransformationStep) :
    List ColumnLineageEdge :=
  match assocGet step.instance_name m.instances with
  | none => []
  | some inst =>
      let tinfo := getTransformation fo m inst
      let sqlQuery : String :=
        match tinfo with
        | some t => t.sql_query.getD ""
        | none => ""
      if inst.transformation_type = TransformationType.SOURCE_QUALIFIER ∧
          sqlQuery ≠ "" then
        parseSqlLineage sqlParse fo sqlQuery targetTable targetCol step
      else if inst.transformation_type = TransformationType.STORED_PROCEDURE
      then
        buildStoredProcLineage tinfo targetTable targetCol step
      else if inst.transformation_type = TransformationType.SOURCE_DEFINITION
      then
        match assocGet inst.transformation_name fo.sources with
        | none => []
        | some sourceDef => sourceDefinitionEdges sourceDef tdef targetCol step
      else standardStepEdges fo m tdef targetCol step

/-- `LineageBuilder.build_column_lineage_edges`. -/
def buildColumnLineageEdges (sqlParse : String → SqlParseResult)
    (fo : FolderInfo) (m : MappingInfo) : List ColumnLineageEdge :=
  (buildMappingLineage fo m).flatMap (fun kc =>
    let tt := splitFirstDot kc.1
    match assocGet tt.1 fo.targets with
    | none => []
    | some tdef => kc.2.flatMap (stepEdges sqlParse fo m tt.1 tt.2 tdef))

/-! ## `DataHubLineageEmitter._get_transformation_order` (Kahn's algorithm)

The Python `incoming`/`outgoing` dicts of sets are modelled as association
lists of insertion-ordered duplicate-free lists.  CPython iterates a `set`
in an unspecified (hash-based) order; the embedding iterates in insertion
order — every property proved below is independent of that order. -/

/-- `mapping.instances` keys in insertion order. -/
def instanceNames (m : MappingInfo) : List String := m.instances.map Prod.fst

/-- One connector's contribution to the `incoming` dict
(`incoming[connector.to_instance].add(connector.from_instance)`, guarded
by both endpoints being instances). -/
def incStep (m : MappingInfo) (inc : List (String × List String))
    (c : ConnectorInfo) : List (String × List String) :=
  if (assocGet c.from_instance m.instances).isSome ∧
      (assocGet c.to_instance m.instances).isSome then
    assocModify c.to_instance (fun l => setAdd l c.from_instance) inc
  else inc

/-- One connector's contribution to the `outgoing` dict. -/
def outStep (m : MappingInfo) (out : List (String × List String))
    (c : ConnectorInfo) : List (String × List String) :=
  if (assocGet c.from_instance m.instances).isSome ∧
      (assocGet c.to_instance m.instances).isSome then
    assocModify c.from_instance (fun l => setAdd l c.to_instance) out
  else out

/-- The `incoming` dict: predecessors per node, over connectors whose two
endpoints are both instances. -/
def buildIncoming (m : MappingInfo) : List (String × List String) :=
  m.connectors.foldl (incStep m) ((instanceNames m).map (fun n => (n, [])))

/-- The `outgoing` dict: successors per node. -/
def buildOutgoing (m : MappingInfo) : List (String × List String) :=
  m.connectors.foldl (outStep m) ((instanceNames m).map (fun n => (n, [])))

/-- Body of the successor loop run for a popped `node`:
`incoming[next].discard(node)`, then enqueue `next` when its incoming set
has emptied. -/
def discardStep (node : String)
    (s : List (String × List String) × List String) (nxt : String) :
    List (String × List String) × List String :=
  let inc' := assocModify nxt (fun l => l.erase node) s.1
  if ((assocGet nxt inc').getD []).isEmpty then (inc', s.2 ++ [nxt])
  else (inc', s.2)

/-- The `while no_incoming:` loop: FIFO pop, append to `result`, then for
each successor discard the popped node from its incoming set and enqueue
it when that set empties.  Fuel-bounded; the loop appends one node to
`result` per iteration and (as proved below) never schedules a node
twice, so `instances.length` iterations always drain the queue. -/
def kahnLoop (out : List (String × List String)) :
    Nat → List (String × List String) → List String → List String →
      List String × List String
  | 0, _, queue, result => (result, queue)
  | _ + 1, _, [], result => (result, [])
  | fuel + 1, inc, node :: rest, result =>
      let st := ((assocGet node out).getD []).foldl (discardStep node) (inc, rest)
      kahnLoop out fuel st.1 st.2 (result ++ [node])

/-- The main Kahn loop of `_get_transformation_order`, seeded with the
no-predecessor nodes in insertion order. -/
def kahnMain (m : MappingInfo) : List String :=
  let inc := buildIncoming m
  let queue0 := inc.filterMap (fun nd => if nd.2.isEmpty then some nd.1 else none)
  (kahnLoop (buildOutgoing m) (instanceNames m).length inc queue0 []).1

/-- `DataHubLineageEmitter._get_transformation_order`: the Kahn result,
then any remaining (cyclic) instances appended in insertion order. -/
def getTransformationOrder (m : MappingInfo) : List String :=
  (instanceNames m).foldl (fun r n => if n ∈ r then r else r ++ [n]) (kahnMain m)

/-! ## `DataHubLineageEmitter._build_job_io` / `emit_dataset_lineage` -/

/-- The `.value` string of each `TransformationType` enum member. -/
def TransformationType.value : TransformationType → String
  | .SOURCE_DEFINITION => "Source Definition"
  | .SOURCE_QUALIFIER => "Source Qualifier"
  | .TARGET_DEFINITION => "Target Definition"
  | .EXPRESSION => "Expression"
  | .FILTER => "Filter"
  | .AGGREGATOR => "Aggregator"
  | .JOINER => "Joiner"
  | .LOOKUP => "Lookup Procedure"
  | .ROUTER => "Router"
  | .SORTER => "Sorter"
  | .SEQUENCE_GENERATOR => "Sequence Generator"
  | .NORMALIZER => "Normalizer"
  | .RANK => "Rank"
  | .UNION => "Union"
  | .UPDATE_STRATEGY => "Update Strategy"
  | .STORED_PROCEDURE => "Stored Procedure"
  | .CUSTOM_TRANSFORMATION => "Custom Transformation"
  | .UNKNOWN => "Unknown"

/-- The emitter configuration held by `DataHubLineageEmitter`. -/
structure EmitterConfig where
  platform : String := "oracle"
  platform_instance : Option String := none
  oracle_platform_instance : Option String := none
  env : String := "PROD"
  deriving DecidableEq, Repr

/-- `__init__`: `self.oracle_platform_instance = oracle_platform_instance
or platform_instance` (`None` and `""` are falsy). -/
def EmitterConfig.oraclePI (cfg : EmitterConfig) : Option String :=
  match cfg.oracle_platform_instance with
  | some s => if s = "" then cfg.platform_instance else some s
  | none => cfg.platform_instance

/-- The external `datahub.emitter.mce_builder.make_dataset_urn`. -/
def makeDatasetUrn (platform name env : String) : String :=
  "urn:li:dataset:(urn:li:dataPlatform:" ++ platform ++ "," ++ name ++ ","
    ++ env ++ ")"

/-- The external `datahub.emitter.mce_builder.make_schema_field_urn`. -/
def makeSchemaFieldUrn (parentUrn fieldPath : String) : String :=
  "urn:li:schemaField:(" ++ parentUrn ++ "," ++ fieldPath ++ ")"

/-- `DataHubLineageEmitter._build_dataset_urn` (`if platform_instance:`
treats `None` and `""` as absent). -/
def buildDatasetUrn (cfg : EmitterConfig) (datasetName : String)
    (isSource : Bool) : String :=
  let pinst := if isSource then cfg.oraclePI else cfg.platform_instance
  match pinst with
  | some p =>
      if p = "" then makeDatasetUrn cfg.platform datasetName cfg.env
      else
        "urn:li:dataset:(urn:li:dataPlatform:" ++ cfg.platform ++ "," ++ p
          ++ "." ++ datasetName ++ "," ++ cfg.env ++ ")"
  | none => makeDatasetUrn cfg.platform datasetName cfg.env

/-- The `FineGrainedLineage` wire aspect (the fields the emitter sets;
the upstream/downstream type tags are the constants FIELD_SET/FIELD). -/
structure FineGrainedLineage where
  upstreams : List String
  downstreams : List String
  transformOperation : Option String := none
  confidenceScore : ℚ := 1
  deriving DecidableEq, Repr

/-- `edges_by_target`: dict grouping, first-seen key order, values
appended in edge order. -/
def groupEdgesBy (key : ColumnLineageEdge → String)
    (edges : List ColumnLineageEdge) :
    List (String × List ColumnLineageEdge) :=
  edges.foldl (fun acc e => assocUpdate (key e) (fun l => l ++ [e]) [] acc) []

/-- `min(e.confidence_score for e in edges) if edges else 1.0`. -/
def minConfidence (edges : List ColumnLineageEdge) : ℚ :=
  match edges with
  | [] => 1
  | e :: rest =>
      rest.foldl (fun acc x => min acc x.confidence_score) e.confidence_score

/-- Python's `target_key.rsplit(".", 1)` with
`parts[1] if len(parts) > 1 else parts[0]` for the column. -/
def rsplitLastDot (s : String) : String × String :=
  let cs := s.data
  if '.' ∈ cs then
    let post := (cs.reverse.takeWhile (fun c => c ≠ '.')).reverse
    (String.mk (cs.take (cs.length - post.length - 1)), String.mk post)
  else (s, s)

/-- Python truthiness filter for expressions (`if
e.transformation_expression` drops both `None` and `""`). -/
def truthyExpr (e : ColumnLineageEdge) : Option String :=
  match e.transformation_expression with
  | some s => if s = "" then none else some s
  | none => none

/-- The shared per-edge loop body of `_build_job_io` (lines 1306-1314) and
`emit_dataset_lineage` (lines 1375-1382): add the source-dataset URN to
the accumulated set; a non-wildcard source column also contributes its
schema-field URN (first occurrence only). -/
def upstreamFoldStep (cfg : EmitterConfig)
    (s : List String × List String) (e : ColumnLineageEdge) :
    List String × List String :=
  let srcUrn := buildDatasetUrn cfg e.source_dataset true
  let inputs := setAdd s.1 srcUrn
  if e.source_column ≠ "*" then
    let furn := makeSchemaFieldUrn srcUrn e.source_column
    if furn ∈ s.2 then (inputs, s.2) else (inputs, s.2 ++ [furn])
  else (inputs, s.2)

/-- The per-group body of `_build_job_io` (lines 1303-1341): collect the
group's upstream field URNs, register the target, and append one
`FineGrainedLineage` when any upstream field exists; its confidence is
`min` over the group. -/
def jobIOGroupStep (cfg : EmitterConfig)
    (st : List String × List String × List FineGrainedLineage)
    (tg : String × List ColumnLineageEdge) :
    List String × List String × List FineGrainedLineage :=
  let inner := tg.2.foldl (upstreamFoldStep cfg) (st.1, [])
  let tparts := rsplitLastDot tg.1
  let targetUrn := buildDatasetUrn cfg tparts.1 false
  let outputs := setAdd st.2.1 targetUrn
  let exprs := tg.2.filterMap truthyExpr
  let combinedExpr : Option String :=
    if exprs.isEmpty then none else some (String.intercalate " -> " exprs)
  let conf := minConfidence tg.2
  if inner.2.isEmpty then (inner.1, outputs, st.2.2)
  else
    (inner.1, outputs, st.2.2 ++
      [⟨inner.2, [makeSchemaFieldUrn targetUrn tparts.2], combinedExpr,
        conf⟩])

/-- `DataHubLineageEmitter._build_job_io`: input/output dataset URN sets
and the fine-grained lineage list, one group per target column. -/
def buildJobIo (cfg : EmitterConfig) (edges : List ColumnLineageEdge) :
    List String × List String × List FineGrainedLineage :=
  (groupEdgesBy (fun e => e.target_dataset ++ "." ++ e.target_column)
    edges).foldl (jobIOGroupStep cfg) ([], [], [])

/-- The per-column fine-grained group of
`DataHubLineageEmitter.emit_dataset_lineage` (lines 1372-1404): upstream
dataset URNs contributed and the optional `FineGrainedLineage`. -/
def datasetLineageGroup (cfg : EmitterConfig) (targetUrn targetCol : String)
    (colEdges : List ColumnLineageEdge) :
    List String × Option FineGrainedLineage :=
  let inner := colEdges.foldl (upstreamFoldStep cfg) ([], [])
  if inner.2.isEmpty then (inner.1, none)
  else
    let sortedEdges := colEdges.mergeSort (fun a b => b.step_order ≤ a.step_order)
    let exprParts := sortedEdges.filterMap (fun e =>
      (truthyExpr e).map (fun x =>
        "[" ++ e.transformation_type.value ++ "] " ++ x))
    let combined : Option String :=
      if exprParts.isEmpty then none
      else some (String.intercalate " → " exprParts)
    (inner.1,
      some ⟨inner.2, [makeSchemaFieldUrn targetUrn targetCol], combined,
        minConfidence colEdges⟩)

/-- The per-column step of the `emit_dataset_lineage` loop: accumulate
upstream dataset URNs and append the column group's `FineGrainedLineage`
when one was built. -/
def datasetLineageColStep (cfg : EmitterConfig) (targetUrn : String)
    (s : List String × List FineGrainedLineage)
    (cg : String × List ColumnLineageEdge) :
    List String × List FineGrainedLineage :=
  let grp := datasetLineageGroup cfg targetUrn cg.1 cg.2
  let ups := grp.1.foldl setAdd s.1
  match grp.2 with
  | some fgl => (ups, s.2 ++ [fgl])
  | none => (ups, s.2)

/-- `DataHubLineageEmitter.emit_dataset_lineage`: per target dataset, the
upstream dataset URN set and the fine-grained lineage list that go into
its `UpstreamLineage` aspect (the aspect is emitted only when the
upstream set is nonempty). -/
def emitDatasetLineage (cfg : EmitterConfig)
    (edges : List ColumnLineageEdge) :
    List (String × List String × List FineGrainedLineage) :=
  (groupEdgesBy (fun e => e.target_dataset) edges).filterMap (fun tg =>
    let targetUrn := buildDatasetUrn cfg tg.1 false
    let byCol := groupEdgesBy (fun e => e.target_column) tg.2
    let acc := byCol.foldl (datasetLineageColStep cfg targetUrn) ([], [])
    if acc.1.isEmpty then none else some (targetUrn, acc.1, acc.2))

end InfaLineage

namespace Essbase

open InfaLineage (assocGet assocUpdate setAdd)

/-! ## Essbase calc-script FIX stack (`calc_extractor.py`) -/

/-- A FIX context: dimension name → member list, insertion-ordered
(the shape produced by `CalcScriptParser._parse_fix_members`). -/
abbrev FixContext := List (String × List String)

/-- `CalcScriptParser._merge_fix_contexts`: merge the stack bottom-up,
unioning member lists per dimension; `extend` with a live membership test
deduplicates sequentially. -/
def mergeFixContexts (fixStack : List FixContext) : FixContext :=
  fixStack.foldl (fun merged ctx =>
    ctx.foldl (fun acc dm =>
      assocUpdate dm.1 (fun cur => dm.2.foldl setAdd cur) [] acc) merged) []

/-- One statement of a calc-script body, as far as the FIX stack is
concerned (`CalcScriptParser._parse_script_body`, lines 184-194). -/
inductive ScopeStmt where
  | fixStart (ctx : FixContext)
  | fixEnd
  | other
  deriving DecidableEq, Repr

/-- The FIX-stack transition of `_parse_script_body`: `fix_stack.append`
on FIX, `fix_stack.pop()` on ENDFIX guarded by `if fix_stack:` (an
unbalanced ENDFIX leaves the stack unchanged, raising no error). -/
def scopeStep (stack : List FixContext) : ScopeStmt → List FixContext
  | .fixStart ctx => stack ++ [ctx]
  | .fixEnd => if stack.isEmpty then stack else stack.dropLast
  | .other => stack

/-! ## Essbase consolidation lineage (`lineage_extractor.py`) -/

/-- `EssbaseMember` (the attributes used by consolidation lineage);
`consolidation` holds the operator character, the value of the
`MemberConsolidation` enum. -/
structure EssbaseMember where
  name : String
  children : List String := []
  consolidation : String := "+"
  deriving DecidableEq, Repr

/-- `EssbaseDimension` (the attributes used by consolidation lineage). -/
structure EssbaseDimension where
  name : String
  members : List EssbaseMember := []
  deriving DecidableEq, Repr

/-- `EssbaseCube` (the attributes used by consolidation lineage). -/
structure EssbaseCube where
  name : String
  application : String
  dimensions : List EssbaseDimension := []
  deriving DecidableEq, Repr

/-- `ColumnLineageMapping` from `openlineage_models.py`. -/
structure ColumnLineageMapping where
  source_dataset : String
  source_field : String
  target_dataset : String
  target_field : String
  transformation_type : Option String := none
  transformation_expression : Option String := none
  confidence : ℚ := 1
  aggregation_function : Option String := none
  filter_expression : Option String := none
  deriving DecidableEq, Repr

/-- `LineageExtractor._consolidation_to_transform`: the fixed
operator→name table, defaulting to SUM. -/
def consolidationToTransform (operator : String) : String :=
  if operator = "+" then "SUM"
  else if operator = "-" then "SUBTRACT"
  else if operator = "*" then "MULTIPLY"
  else if operator = "/" then "DIVIDE"
  else if operator = "%" then "PERCENT"
  else if operator = "~" then "IGNORE"
  else if operator = "^" then "NEVER_CONSOLIDATE"
  else "SUM"

/-- `{m.name: m for m in dimension.members}`: a dict comprehension, later
duplicates overwriting earlier ones in place. -/
def memberMap (members : List EssbaseMember) : List (String × EssbaseMember) :=
  members.foldl (fun acc m => assocUpdate m.name (fun _ => m) m acc) []

/-- The record built for one (parent, child) pair by
`extract_consolidation_lineage`. -/
def consolidationRecord (datasetName dimName parentName childName : String)
    (child : EssbaseMember) : ColumnLineageMapping :=
  { source_dataset := datasetName
    source_field := dimName ++ "." ++ childName
    target_dataset := datasetName
    target_field := dimName ++ "." ++ parentName
    transformation_type := some "consolidation"
    transformation_expression := some (child.consolidation ++ childName)
    aggregation_function := some (consolidationToTransform child.consolidation) }

/-- The inner `for child_name in member.children:` loop of
`extract_consolidation_lineage`: unresolvable children are skipped. -/
def memberConsolidationEdges (datasetName dimName : String)
    (mm : List (String × EssbaseMember)) (member : EssbaseMember) :
    List ColumnLineageMapping :=
  member.children.filterMap (fun childName =>
    (assocGet childName mm).map
      (consolidationRecord datasetName dimName member.name childName))

/-- The per-dimension body of `extract_consolidation_lineage`. -/
def dimensionConsolidationLineage (datasetName : String)
    (dimension : EssbaseDimension) : List ColumnLineageMapping :=
  let mm := memberMap dimension.members
  dimension.members.flatMap (memberConsolidationEdges datasetName dimension.name mm)

/-- `LineageExtractor.extract_consolidation_lineage`: one mapping per
(parent, resolvable child) occurrence, dataset `f"{app}.{cube}"`. -/
def extractConsolidationLineage (cube : EssbaseCube) : List ColumnLineageMapping :=
  cube.dimensions.flatMap
    (dimensionConsolidationLineage (cube.application ++ "." ++ cube.name))

end Essbase

/-! # Shared string lemmas -/

namespace InfaLineage

theorem string_append_left_cancel {a b c : String} (h : a ++ b = a ++ c) :
    b = c := by
  have hd := congrArg String.data h
  simp only [String.data_append] at hd
  exact String.ext (List.append_cancel_left hd)

theorem list_dot_split {l1 l2 l3 l4 : List Char} (h1 : '.' ∉ l1)
    (h3 : '.' ∉ l3) (h : l1 ++ '.' :: l2 = l3 ++ '.' :: l4) :
    l1 = l3 ∧ l2 = l4 := by
  induction l1 generalizing l3 with
  | nil =>
      cases l3 with
      | nil => simpa using h
      | cons c cs =>
          simp only [List.nil_append, List.cons_append, List.cons.injEq] at h
          exact absurd (h.1 ▸ List.mem_cons_self c cs) h3
  | cons a as ih =>
      cases l3 with
      | nil =>
          simp only [List.nil_append, List.cons_append, List.cons.injEq] at h
          exact absurd (h.1 ▸ List.mem_cons_self a as) h1
      | cons b bs =>
          simp only [List.cons_append, List.cons.injEq] at h
          obtain ⟨hab, htail⟩ := h
          have h1' : '.' ∉ as := fun hm => h1 (List.mem_cons_of_mem a hm)
          have h3' : '.' ∉ bs := fun hm => h3 (List.mem_cons_of_mem b hm)
          obtain ⟨he, ht⟩ := ih h1' h3' htail
          exact ⟨by rw [hab, he], ht⟩

theorem string_dot_split {a b c d : String} (ha : '.' ∉ a.data)
    (hc : '.' ∉ c.data) (h : a ++ "." ++ b = c ++ "." ++ d) :
    a = c ∧ b = d := by
  have hd := congrArg String.data h
  simp only [String.data_append] at hd
  rw [List.append_assoc, List.append_assoc] at hd
  have hd' : a.data ++ '.' :: b.data = c.data ++ '.' :: d.data := by
    simpa using hd
  obtain ⟨h1, h2⟩ := list_dot_split ha hc hd'
  exact ⟨String.ext h1, String.ext h2⟩

end InfaLineage

/-! # Claim C8: the FIX scope stack -/

namespace Essbase

/-- C8: pushing the scope context `{Year:[Jan]}` and then `{Market:[East]}`
merges to `{Year:[Jan], Market:[East]}` (union per dimension, first-seen
order); popping once leaves only `{Year:[Jan]}`; and an ENDFIX on an empty
stack leaves the stack unchanged (no error). -/
theorem C8_scope_stack_merge_and_pop :
    (mergeFixContexts
        (scopeStep (scopeStep [] (ScopeStmt.fixStart [("Year", ["Jan"])]))
          (ScopeStmt.fixStart [("Market", ["East"])])) =
      [("Year", ["Jan"]), ("Market", ["East"])]) ∧
    (mergeFixContexts
        (scopeStep
          (scopeStep (scopeStep [] (ScopeStmt.fixStart [("Year", ["Jan"])]))
            (ScopeStmt.fixStart [("Market", ["East"])]))
          ScopeStmt.fixEnd) =
      [("Year", ["Jan"])]) ∧
    scopeStep [] ScopeStmt.fixEnd = [] := by
  refine ⟨?_, ?_, ?_⟩ <;> rfl

/-! # Claim C9: consolidation-hierarchy lineage -/

open InfaLineage (assocGet assocUpdate string_append_left_cancel string_dot_split)

theorem memberMap_get {members : List EssbaseMember} {m : EssbaseMember}
    (hn : (members.map EssbaseMember.name).Nodup) (hm : m ∈ members) :
    assocGet m.name (memberMap members) = some m := by
  induction members using List.reverseRecOn with
  | nil => cases hm
  | append_singleton l a ih =>
      have hmm : memberMap (l ++ [a]) =
          InfaLineage.assocUpdate a.name (fun _ => a) a (memberMap l) := by
        simp [memberMap, List.foldl_concat]
      rw [hmm]
      rcases List.mem_append.mp hm with hml | hma
      · have hne : a.name ≠ m.name := by
          intro he
          have : a.name ∈ l.map EssbaseMember.name := he ▸ List.mem_map_of_mem _ hml
          simp only [List.map_append, List.map_cons, List.map_nil] at hn
          exact (List.nodup_append.mp hn).2.2 this (List.mem_singleton_self _)
        rw [InfaLineage.assocGet_assocUpdate_ne _ _ _ hne]
        refine ih ?_ hml
        simp only [List.map_append] at hn
        exact (List.nodup_append.mp hn).1
      · have hea : m = a := List.mem_singleton.mp hma
        subst hea
        rw [InfaLineage.assocGet_assocUpdate_self]

theorem mem_memberConsolidationEdges {ds dn : String}
    {mm : List (String × EssbaseMember)} {member : EssbaseMember}
    {r : ColumnLineageMapping}
    (hr : r ∈ memberConsolidationEdges ds dn mm member) :
    ∃ cn c, r = consolidationRecord ds dn member.name cn c := by
  simp only [memberConsolidationEdges, List.mem_filterMap] at hr
  obtain ⟨cn, _, hmap⟩ := hr
  cases hg : assocGet cn mm with
  | none => rw [hg] at hmap; cases hmap
  | some c =>
      rw [hg] at hmap
      exact ⟨cn, c, (Option.some_injective _ hmap).symm⟩

theorem count_memberConsolidationEdges (ds dn pn : String)
    (mm : List (String × EssbaseMember)) (child : EssbaseMember)
    (hchild : assocGet child.name mm = some child) (children : List String) :
    ((children.filterMap (fun childName =>
        (assocGet childName mm).map (consolidationRecord ds dn pn childName))).count
      (consolidationRecord ds dn pn child.name child)) =
      children.count child.name := by
  induction children with
  | nil => simp
  | cons c cs ih =>
      by_cases hc : c = child.name
      · subst hc
        simp [List.filterMap_cons, hchild, List.count_cons, ih]
      · have hcc : (child.name == c) = false := by
          simp [beq_iff_eq]
          exact fun he => hc he.symm
        cases hg : assocGet c mm with
        | none =>
            simp [List.filterMap_cons, hg, List.count_cons, ih, hcc, hc]
        | some c' =>
            have hne : consolidationRecord ds dn pn child.name child ≠
                consolidationRecord ds dn pn c c' := by
              intro he
              have hsf := congrArg ColumnLineageMapping.source_field he
              simp only [consolidationRecord] at hsf
              exact hc (string_append_left_cancel hsf).symm
            simp [List.filterMap_cons, hg, List.count_cons, ih, hcc, hne, hc]

theorem count_memberEdges_of_ne_name (ds dn pn cn : String)
    (mm : List (String × EssbaseMember)) (child member : EssbaseMember)
    (hne : member.name ≠ pn) :
    (memberConsolidationEdges ds dn mm member).count
      (consolidationRecord ds dn pn cn child) = 0 := by
  refine List.count_eq_zero.mpr (fun hmem => ?_)
  obtain ⟨cn', c', he⟩ := mem_memberConsolidationEdges hmem
  have htf := congrArg ColumnLineageMapping.target_field he
  simp only [consolidationRecord] at htf
  exact hne (string_append_left_cancel htf).symm

theorem count_members_flatMap (ds dn : String)
    (mm : List (String × EssbaseMember)) (parent child : EssbaseMember)
    (hchild : assocGet child.name mm = some child)
    (hcn : child.name ∈ parent.children) (hch : parent.children.Nodup) :
    ∀ members : List EssbaseMember,
      (members.map EssbaseMember.name).Nodup → parent ∈ members →
      ((members.flatMap (memberConsolidationEdges ds dn mm)).count
        (consolidationRecord ds dn parent.name child.name child)) = 1 := by
  intro members
  induction members with
  | nil => intro _ hp; cases hp
  | cons m ms ih =>
      intro hn hp
      simp only [List.map_cons, List.nodup_cons] at hn
      obtain ⟨hmn, hnms⟩ := hn
      rw [List.flatMap_cons, List.count_append]
      rcases List.mem_cons.mp hp with hpm | hpms
      · have h1 : (memberConsolidationEdges ds dn mm m).count
            (consolidationRecord ds dn parent.name child.name child) = 1 := by
          rw [← hpm, memberConsolidationEdges,
            count_memberConsolidationEdges ds dn parent.name mm child hchild]
          exact List.count_eq_one_of_mem hch hcn
        have h2 : ((ms.flatMap (memberConsolidationEdges ds dn mm)).count
            (consolidationRecord ds dn parent.name child.name child)) = 0 := by
          refine List.count_eq_zero.mpr (fun hmem => ?_)
          obtain ⟨m', hm', hr⟩ := List.mem_flatMap.mp hmem
          obtain ⟨cn', c', he⟩ := mem_memberConsolidationEdges hr
          have htf := congrArg ColumnLineageMapping.target_field he
          simp only [consolidationRecord] at htf
          have hmn' : m'.name = parent.name := (string_append_left_cancel htf).symm
          rw [hpm] at hmn'
          exact hmn (hmn' ▸ List.mem_map_of_mem _ hm')
        omega
      · have hmne : m.name ≠ parent.name := by
          intro he
          exact hmn (he ▸ List.mem_map_of_mem _ hpms)
        rw [count_memberEdges_of_ne_name ds dn parent.name child.name mm child m hmne]
        have := ih hnms hpms
        omega

theorem mem_dimensionConsolidation_source {ds : String}
    {dim : EssbaseDimension} {r : ColumnLineageMapping}
    (hr : r ∈ dimensionConsolidationLineage ds dim) :
    ∃ cn : String, r.source_field = dim.name ++ "." ++ cn := by
  simp only [dimensionConsolidationLineage, List.mem_flatMap] at hr
  obtain ⟨m, _, hrm⟩ := hr
  obtain ⟨cn, c, he⟩ := mem_memberConsolidationEdges hrm
  exact ⟨cn, by rw [he]; rfl⟩

theorem count_dims_flatMap (ds : String) (dim : EssbaseDimension)
    (parent child : EssbaseMember)
    (hone : (dimensionConsolidationLineage ds dim).count
      (consolidationRecord ds dim.name parent.name child.name child) = 1) :
    ∀ dims : List EssbaseDimension,
      (dims.map EssbaseDimension.name).Nodup →
      (∀ d ∈ dims, '.' ∉ d.name.data) → dim ∈ dims →
      ((dims.flatMap (dimensionConsolidationLineage ds)).count
        (consolidationRecord ds dim.name parent.name child.name child)) = 1 := by
  intro dims
  induction dims with
  | nil => intro _ _ hd; cases hd
  | cons d dsl ih =>
      intro hn hdot hd
      simp only [List.map_cons, List.nodup_cons] at hn
      obtain ⟨hdn, hdns⟩ := hn
      have hdot' : ∀ d' ∈ dsl, '.' ∉ d'.name.data := fun d' hd' =>
        hdot d' (List.mem_cons_of_mem d hd')
      have hdotd : '.' ∉ d.name.data := hdot d (List.mem_cons_self d dsl)
      rw [List.flatMap_cons, List.count_append]
      rcases List.mem_cons.mp hd with hde | hdm
      · subst hde
        have h2 : ((dsl.flatMap (dimensionConsolidationLineage ds)).count
            (consolidationRecord ds dim.name parent.name child.name child)) = 0 := by
          refine List.count_eq_zero.mpr (fun hmem2 => ?_)
          obtain ⟨d', hd', hr⟩ := List.mem_flatMap.mp hmem2
          obtain ⟨cn, hsf⟩ := mem_dimensionConsolidation_source hr
          have hsf2 : dim.name ++ "." ++ child.name = d'.name ++ "." ++ cn := hsf
          have hnames := (string_dot_split hdotd (hdot' d' hd') hsf2).1
          exact hdn (hnames ▸ List.mem_map_of_mem _ hd')
        rw [hone, h2]
      · have hdne : d.name ≠ dim.name := fun he =>
          hdn (he ▸ List.mem_map_of_mem _ hdm)
        have h1 : ((dimensionConsolidationLineage ds d).count
            (consolidationRecord ds dim.name parent.name child.name child)) = 0 := by
          refine List.count_eq_zero.mpr (fun hmem2 => ?_)
          obtain ⟨cn, hsf⟩ := mem_dimensionConsolidation_source hmem2
          have hsf2 : dim.name ++ "." ++ child.name = d.name ++ "." ++ cn := hsf
          exact hdne ((string_dot_split (hdot' dim hdm) hdotd hsf2).1).symm
        have := ih hdns hdot' hdm
        omega

/-- C9: for every consolidation parent member with recorded children and
each such child (resolved through the member map), exactly one lineage
record is emitted — source the child, target the parent, transformation
type "consolidation", aggregation tag from the fixed operator table, any
other operator defaulting to SUM. -/
theorem C9_consolidation_lineage (cube : EssbaseCube) (dim : EssbaseDimension)
    (parent child : EssbaseMember)
    (hdims : (cube.dimensions.map EssbaseDimension.name).Nodup)
    (hdot : ∀ d ∈ cube.dimensions, '.' ∉ d.name.data)
    (hdim : dim ∈ cube.dimensions)
    (hmem : (dim.members.map EssbaseMember.name).Nodup)
    (hp : parent ∈ dim.members)
    (hcm : child ∈ dim.members)
    (hcn : child.name ∈ parent.children)
    (hch : parent.children.Nodup) :
    ((extractConsolidationLineage cube).count
        (consolidationRecord (cube.application ++ "." ++ cube.name) dim.name
          parent.name child.name child) = 1) ∧
      consolidationToTransform "+" = "SUM" ∧
      consolidationToTransform "-" = "SUBTRACT" ∧
      consolidationToTransform "*" = "MULTIPLY" ∧
      consolidationToTransform "/" = "DIVIDE" ∧
      consolidationToTransform "%" = "PERCENT" ∧
      consolidationToTransform "~" = "IGNORE" ∧
      consolidationToTransform "^" = "NEVER_CONSOLIDATE" ∧
      (∀ op : String, op ∉ ["+", "-", "*", "/", "%", "~", "^"] →
        consolidationToTransform op = "SUM") := by
  refine ⟨?_, rfl, rfl, rfl, rfl, rfl, rfl, rfl, ?_⟩
  · have hchild : assocGet child.name (memberMap dim.members) = some child :=
      memberMap_get hmem hcm
    have hone : (dimensionConsolidationLineage (cube.application ++ "." ++ cube.name) dim).count
        (consolidationRecord (cube.application ++ "." ++ cube.name) dim.name
          parent.name child.name child) = 1 := by
      rw [dimensionConsolidationLineage]
      exact count_members_flatMap _ dim.name (memberMap dim.members) parent
        child hchild hcn hch dim.members hmem hp
    rw [extractConsolidationLineage]
    exact count_dims_flatMap _ dim parent child hone cube.dimensions hdims hdot hdim
  · intro op hop
    simp only [List.mem_cons, List.mem_singleton, not_or] at hop
    obtain ⟨h1, h2, h3, h4, h5, h6, h7⟩ := hop
    simp [consolidationToTransform, h1, h2, h3, h4, h5, h6, h7]

/-- The member `Q1` of the C9 witness cube. -/
def sampleQ1 : EssbaseMember := { name := "Q1" }

/-- The member `Total` with child `Q1` under `+`. -/
def sampleTotal : EssbaseMember := { name := "Total", children := ["Q1"] }

/-- The dimension holding `Total` and `Q1`. -/
def sampleDim : EssbaseDimension :=
  { name := "Accounts", members := [sampleTotal, sampleQ1] }

/-- The C9 witness cube. -/
def sampleCube : EssbaseCube :=
  { name := "Plan1", application := "Budget", dimensions := [sampleDim] }

/-- C9 witness: the `Total`/`Q1`/`+` scenario yields exactly one `Q1 →
Total` consolidation record tagged SUM. -/
theorem C9_consolidation_lineage_witness :
    (extractConsolidationLineage sampleCube).count
      (consolidationRecord (sampleCube.application ++ "." ++ sampleCube.name)
        sampleDim.name sampleTotal.name sampleQ1.name sampleQ1) = 1 :=
  (C9_consolidation_lineage sampleCube sampleDim sampleTotal sampleQ1
    (by decide) (by decide) (by decide) (by decide) (by decide) (by decide)
    (by decide) (by decide)).1

end Essbase

/-! # Claim C7: stored-procedure call detection and short-circuit -/

namespace InfaLineage

/-- C7: whenever the embedded SQL matches a call pattern (patterns tried
in the fixed order CALL, EXECUTE, BEGIN, ODBC, leftmost occurrence, first
match winning), `_parse_sql_lineage` emits exactly one edge — wildcard `*`
source column, confidence 1.0, STORED_PROCEDURE kind — for any result the
column-level SQL parser would have produced (no descent happens); and the
scenario text `BEGIN PKG.GET_KEY(:1,:2); END;` detects as
`("PKG", "GET_KEY")`. -/
theorem C7_stored_proc_short_circuit (sqlParse : String → SqlParseResult)
    (fo : FolderInfo) (sql targetTable targetCol : String)
    (step : TransformationStep) (schema procName : String)
    (hdet : detectStoredProcedureCall sql = some (schema, procName)) :
    detectStoredProcedureCall "BEGIN PKG.GET_KEY(:1,:2); END;" =
        some ("PKG", "GET_KEY") ∧
    parseSqlLineage sqlParse fo sql targetTable targetCol step =
      [{ source_dataset :=
           if schema = "" then procName else schema ++ "." ++ procName
         source_column := "*"
         target_dataset := targetTable
         target_column := targetCol
         transformation_type := TransformationType.STORED_PROCEDURE
         transformation_expression :=
           some (if schema = "" then "CALL " ++ procName
             else "CALL " ++ schema ++ "." ++ procName)
         confidence_score := 1
         step_order := step.step_order }] := by
  constructor
  · rfl
  · simp [parseSqlLineage, hdet]

/-- A folder used by concrete witnesses. -/
def sampleFolder : FolderInfo := { name := "F" }

/-- A transformation step used by concrete witnesses. -/
def sampleStep : TransformationStep :=
  { step_order := 3, instance_name := "SQ"
    transformation_type := TransformationType.SOURCE_QUALIFIER
    input_fields := [], output_fields := [("SQ", "C")] }

/-- C7 witness: the scenario text, with an arbitrary nonempty SQL-parser
result that is ignored by the short-circuit. -/
theorem C7_stored_proc_short_circuit_witness :
    detectStoredProcedureCall "BEGIN PKG.GET_KEY(:1,:2); END;" =
        some ("PKG", "GET_KEY") ∧
    parseSqlLineage (fun _ => [([("T", "C")], "C", none)]) sampleFolder
        "BEGIN PKG.GET_KEY(:1,:2); END;" "TGT" "C" sampleStep =
      [{ source_dataset := "PKG.GET_KEY"
         source_column := "*"
         target_dataset := "TGT"
         target_column := "C"
         transformation_type := TransformationType.STORED_PROCEDURE
         transformation_expression := some "CALL PKG.GET_KEY"
         confidence_score := 1
         step_order := 3 }] :=
  C7_stored_proc_short_circuit (fun _ => [([("T", "C")], "C", none)])
    sampleFolder "BEGIN PKG.GET_KEY(:1,:2); END;" "TGT" "C" sampleStep
    "PKG" "GET_KEY" rfl

/-! # Claim C6: edge insertion is not idempotent (corrected) -/

/-- A connector used by the C6 counterexample. -/
def dupConnector : ConnectorInfo :=
  ⟨"A", "Expression", "X", "B", "Target Definition", "Y"⟩

/-- C6 counterexample: inserting the same connector twice produces a
duplicated upstream pair, so `edges_into` differs from the single
insertion — insertion is not idempotent. -/
theorem C6_counterexample_duplicate_edge :
    graphLookup (buildInstanceGraph [dupConnector, dupConnector]) "B" "Y" =
        [("A", "X"), ("A", "X")] ∧
    graphLookup (buildInstanceGraph [dupConnector]) "B" "Y" = [("A", "X")] ∧
    graphLookup (buildInstanceGraph [dupConnector, dupConnector]) "B" "Y" ≠
      graphLookup (buildInstanceGraph [dupConnector]) "B" "Y" := by
  refine ⟨rfl, rfl, by decide⟩

theorem graphLookup_eq (g : InstanceGraph) (ti tf : String) :
    graphLookup g ti tf =
      (assocGet tf ((assocGet ti g).getD [])).getD [] := by
  cases hg : assocGet ti g with
  | none => simp [graphLookup, hg, assocGet]
  | some inner => simp [graphLookup, hg]

theorem graphLookup_addConnector (g : InstanceGraph) (c : ConnectorInfo)
    (ti tf : String) :
    graphLookup
        (assocUpdate c.to_instance
          (assocUpdate c.to_field
            (fun l => l ++ [(c.from_instance, c.from_field)]) [])
          [] g) ti tf =
      graphLookup g ti tf ++
        (if c.to_instance = ti ∧ c.to_field = tf
          then [(c.from_instance, c.from_field)] else []) := by
  rw [graphLookup_eq, graphLookup_eq]
  by_cases hti : c.to_instance = ti
  · subst hti
    rw [assocGet_assocUpdate_self, Option.getD_some]
    by_cases htf : c.to_field = tf
    · subst htf
      rw [assocGet_assocUpdate_self, Option.getD_some]
      simp
    · rw [assocGet_assocUpdate_ne _ _ _ htf]
      simp [htf]
  · rw [assocGet_assocUpdate_ne _ _ _ hti]
    simp [hti]

/-- C6 amended: `_build_instance_graph` appends unconditionally — adding a
connector appends its from-pair to the `(to_instance, to_field)` upstream
list, so inserting the same edge twice yields the pair twice (duplicates
accumulate; insertion is not idempotent). -/
theorem C6_amended_edge_insertion_appends (connectors : List ConnectorInfo)
    (c : ConnectorInfo) (ti tf : String) :
    graphLookup (buildInstanceGraph (connectors ++ [c])) ti tf =
      graphLookup (buildInstanceGraph connectors) ti tf ++
        (if c.to_instance = ti ∧ c.to_field = tf
          then [(c.from_instance, c.from_field)] else []) := by
  rw [buildInstanceGraph, List.foldl_concat, ← buildInstanceGraph]
  exact graphLookup_addConnector _ c ti tf

end InfaLineage

/-! # Claims C10 and C4: fine-grained lineage invariants -/

namespace InfaLineage

theorem mem_setAdd {l : List String} {x y : String} :
    y ∈ setAdd l x ↔ y ∈ l ∨ y = x := by
  rw [setAdd]
  by_cases h : x ∈ l
  · simp only [if_pos h]
    exact ⟨Or.inl, fun hy => hy.elim id (fun he => he ▸ h)⟩
  · simp [if_neg h]

theorem subset_setAdd (l : List String) (x : String) : l ⊆ setAdd l x :=
  fun _ h => mem_setAdd.mpr (Or.inl h)

theorem self_mem_setAdd (l : List String) (x : String) : x ∈ setAdd l x :=
  mem_setAdd.mpr (Or.inr rfl)

theorem upstreamFoldStep_fst_eq (cfg : EmitterConfig)
    (init : List String × List String) (e : ColumnLineageEdge) :
    (upstreamFoldStep cfg init e).1 =
      setAdd init.1 (buildDatasetUrn cfg e.source_dataset true) := by
  rw [upstreamFoldStep]
  by_cases h : e.source_column = "*"
  · simp [h]
  · by_cases h2 : makeSchemaFieldUrn (buildDatasetUrn cfg e.source_dataset true)
        e.source_column ∈ init.2 <;> simp [h, h2]

theorem upstreamFoldStep_snd (cfg : EmitterConfig)
    (init : List String × List String) (e : ColumnLineageEdge) :
    ∀ u ∈ (upstreamFoldStep cfg init e).2, u ∈ init.2 ∨
      (e.source_column ≠ "*" ∧
        u = makeSchemaFieldUrn (buildDatasetUrn cfg e.source_dataset true)
          e.source_column) := by
  intro u hu
  by_cases h : e.source_column = "*"
  · rw [upstreamFoldStep] at hu
    simp only [h, ne_eq, not_true_eq_false, if_false] at hu
    exact Or.inl hu
  · by_cases h2 : makeSchemaFieldUrn (buildDatasetUrn cfg e.source_dataset true)
        e.source_column ∈ init.2
    · rw [upstreamFoldStep] at hu
      simp only [h, ne_eq, not_false_eq_true, if_true, if_pos h2] at hu
      exact Or.inl hu
    · rw [upstreamFoldStep] at hu
      simp only [h, ne_eq, not_false_eq_true, if_true, if_neg h2,
        List.mem_append, List.mem_singleton] at hu
      rcases hu with hu | hu
      · exact Or.inl hu
      · exact Or.inr ⟨h, hu⟩

theorem upstreamFold_spec (cfg : EmitterConfig)
    (edges : List ColumnLineageEdge) :
    ∀ init : List String × List String,
      (∀ u ∈ (edges.foldl (upstreamFoldStep cfg) init).2,
        u ∈ init.2 ∨ ∃ e ∈ edges, e.source_column ≠ "*" ∧
          u = makeSchemaFieldUrn (buildDatasetUrn cfg e.source_dataset true)
            e.source_column) ∧
      (∀ x ∈ init.1, x ∈ (edges.foldl (upstreamFoldStep cfg) init).1) ∧
      (∀ e ∈ edges, buildDatasetUrn cfg e.source_dataset true ∈
        (edges.foldl (upstreamFoldStep cfg) init).1) := by
  induction edges with
  | nil => intro init; exact ⟨fun u hu => Or.inl hu, fun x hx => hx, by simp⟩
  | cons e es ih =>
      intro init
      rw [List.foldl_cons]
      obtain ⟨ih1, ih2, ih3⟩ := ih (upstreamFoldStep cfg init e)
      refine ⟨?_, ?_, ?_⟩
      · intro u hu
        rcases ih1 u hu with hin | ⟨e', he', hne, hurn⟩
        · rcases upstreamFoldStep_snd cfg init e u hin with h0 | ⟨hne, hurn⟩
          · exact Or.inl h0
          · exact Or.inr ⟨e, List.mem_cons_self e es, hne, hurn⟩
        · exact Or.inr ⟨e', List.mem_cons_of_mem _ he', hne, hurn⟩
      · intro x hx
        refine ih2 x ?_
        rw [upstreamFoldStep_fst_eq]
        exact subset_setAdd _ _ hx
      · intro e' he'
        rcases List.mem_cons.mp he' with he0 | hes
        · subst he0
          refine ih2 _ ?_
          rw [upstreamFoldStep_fst_eq]
          exact self_mem_setAdd _ _
        · exact ih3 e' hes

theorem mem_assocUpdate {α : Type} {k : String} {f : α → α} {d : α}
    {l : List (String × α)} {g : String × α} (hg : g ∈ assocUpdate k f d l) :
    g ∈ l ∨ (∃ v, (k, v) ∈ l ∧ g = (k, f v)) ∨ g = (k, f d) := by
  induction l with
  | nil =>
      simp only [assocUpdate, List.mem_singleton] at hg
      exact Or.inr (Or.inr hg)
  | cons hd tl ih =>
      obtain ⟨k', v⟩ := hd
      by_cases hk : k' = k
      · subst hk
        simp only [assocUpdate, if_true, List.mem_cons] at hg
        rcases hg with hg | hg
        · exact Or.inr (Or.inl ⟨v, List.mem_cons_self _ _, hg⟩)
        · exact Or.inl (List.mem_cons_of_mem _ hg)
      · simp only [assocUpdate, if_neg hk, List.mem_cons] at hg
        rcases hg with hg | hg
        · exact Or.inl (hg ▸ List.mem_cons_self _ _)
        · rcases ih hg with h | ⟨v', hv', he⟩ | he
          · exact Or.inl (List.mem_cons_of_mem _ h)
          · exact Or.inr (Or.inl ⟨v', List.mem_cons_of_mem _ hv', he⟩)
          · exact Or.inr (Or.inr he)

theorem mono_assocUpdate {α : Type} (k : String) (f : α → α) (d : α)
    (l : List (String × α)) :
    ∀ g ∈ l, ∃ g' ∈ assocUpdate k f d l, g'.1 = g.1 ∧ (g'.2 = g.2 ∨ g'.2 = f g.2) := by
  induction l with
  | nil => intro g hg; cases hg
  | cons hd tl ih =>
      obtain ⟨k', v⟩ := hd
      intro g hg
      by_cases hk : k' = k
      · rcases List.mem_cons.mp hg with he | htl
        · exact ⟨(k', f v), by simp [assocUpdate, hk], by rw [he],
            Or.inr (by rw [he])⟩
        · exact ⟨g, by simp [assocUpdate, hk, List.mem_cons_of_mem _ htl], rfl,
            Or.inl rfl⟩
      · rcases List.mem_cons.mp hg with he | htl
        · exact ⟨(k', v), by simp [assocUpdate, hk], by rw [he], Or.inl (by rw [he])⟩
        · obtain ⟨g', hg', he1, he2⟩ := ih g htl
          exact ⟨g', by simp [assocUpdate, hk, List.mem_cons_of_mem _ hg'],
            he1, he2⟩

theorem exists_mem_assocUpdate {α : Type} (k : String) (f : α → α) (d : α)
    (l : List (String × α)) :
    ∃ v, (k, f v) ∈ assocUpdate k f d l := by
  induction l with
  | nil => exact ⟨d, by simp [assocUpdate]⟩
  | cons hd tl ih =>
      obtain ⟨k', v⟩ := hd
      by_cases hk : k' = k
      · subst hk
        exact ⟨v, by simp [assocUpdate]⟩
      · obtain ⟨v', hv'⟩ := ih
        exact ⟨v', by simp [assocUpdate, hk, List.mem_cons_of_mem _ hv']⟩

theorem groupEdgesBy_mem (key : ColumnLineageEdge → String)
    (edges : List ColumnLineageEdge) :
    ∀ g ∈ groupEdgesBy key edges, (∀ e ∈ g.2, e ∈ edges) ∧ g.2 ≠ [] := by
  induction edges using List.reverseRecOn with
  | nil => intro g hg; cases hg
  | append_singleton es x ih =>
      have hgb : groupEdgesBy key (es ++ [x]) =
          assocUpdate (key x) (fun ll => ll ++ [x]) [] (groupEdgesBy key es) := by
        simp [groupEdgesBy, List.foldl_concat]
      intro g hg
      rw [hgb] at hg
      rcases mem_assocUpdate hg with h | ⟨v, hv, he⟩ | he
      · obtain ⟨h1, h2⟩ := ih g h
        exact ⟨fun e he2 => List.mem_append_left _ (h1 e he2), h2⟩
      · obtain ⟨h1, h2⟩ := ih (key x, v) hv
        subst he
        constructor
        · intro e he2
          rcases List.mem_append.mp he2 with h3 | h3
          · exact List.mem_append_left _ (h1 e h3)
          · rw [List.mem_singleton.mp h3]
            exact List.mem_append_right _ (List.mem_singleton_self x)
        · simp
      · subst he
        refine ⟨fun e he2 => ?_, by simp⟩
        have hex : e = x := by simpa using he2
        rw [hex]
        exact List.mem_append_right _ (List.mem_singleton_self x)

theorem groupEdgesBy_covers (key : ColumnLineageEdge → String)
    (edges : List ColumnLineageEdge) :
    ∀ e ∈ edges, ∃ g ∈ groupEdgesBy key edges, e ∈ g.2 := by
  induction edges using List.reverseRecOn with
  | nil => intro e he; cases he
  | append_singleton es x ih =>
      have hgb : groupEdgesBy key (es ++ [x]) =
          assocUpdate (key x) (fun ll => ll ++ [x]) [] (groupEdgesBy key es) := by
        simp [groupEdgesBy, List.foldl_concat]
      intro e he
      rw [hgb]
      rcases List.mem_append.mp he with hes | hx
      · obtain ⟨g, hg, heg⟩ := ih e hes
        obtain ⟨g', hg', _, he2⟩ := mono_assocUpdate (key x)
          (fun ll => ll ++ [x]) [] (groupEdgesBy key es) g hg
        refine ⟨g', hg', ?_⟩
        rcases he2 with he2 | he2
        · rw [he2]; exact heg
        · rw [he2]; exact List.mem_append_left _ heg
      · obtain ⟨v, hv⟩ := exists_mem_assocUpdate (key x)
          (fun ll => ll ++ [x]) [] (groupEdgesBy key es)
        refine ⟨(key x, v ++ [x]), hv, ?_⟩
        rw [List.mem_singleton.mp hx]
        exact List.mem_append_right _ (List.mem_singleton_self x)

end InfaLineage

namespace InfaLineage

theorem jobIOGroupStep_fst (cfg : EmitterConfig)
    (st : List String × List String × List FineGrainedLineage)
    (tg : String × List ColumnLineageEdge) :
    (jobIOGroupStep cfg st tg).1 =
      (tg.2.foldl (upstreamFoldStep cfg) (st.1, [])).1 := by
  rw [jobIOGroupStep]
  by_cases h : (tg.2.foldl (upstreamFoldStep cfg) (st.1, [])).2.isEmpty <;>
    simp [h]

theorem jobIOGroupStep_fgl (cfg : EmitterConfig)
    (st : List String × List String × List FineGrainedLineage)
    (tg : String × List ColumnLineageEdge) :
    ∀ fg ∈ (jobIOGroupStep cfg st tg).2.2, fg ∈ st.2.2 ∨
      (fg.confidenceScore = minConfidence tg.2 ∧
        fg.upstreams = (tg.2.foldl (upstreamFoldStep cfg) (st.1, [])).2) := by
  intro fg hfg
  simp only [jobIOGroupStep] at hfg
  by_cases h : (tg.2.foldl (upstreamFoldStep cfg) (st.1, [])).2.isEmpty
  · rw [if_pos h] at hfg
    exact Or.inl hfg
  · rw [if_neg h] at hfg
    rcases List.mem_append.mp hfg with h1 | h1
    · exact Or.inl h1
    · rw [List.mem_singleton.mp h1]
      exact Or.inr ⟨rfl, rfl⟩

theorem jobIO_fold_spec (cfg : EmitterConfig) :
    ∀ gs : List (String × List ColumnLineageEdge),
      ∀ st : List String × List String × List FineGrainedLineage,
      (∀ fg ∈ (gs.foldl (jobIOGroupStep cfg) st).2.2, fg ∈ st.2.2 ∨
        ∃ g ∈ gs, fg.confidenceScore = minConfidence g.2 ∧
          (∀ u ∈ fg.upstreams, ∃ e ∈ g.2, e.source_column ≠ "*" ∧
            u = makeSchemaFieldUrn (buildDatasetUrn cfg e.source_dataset true)
              e.source_column)) ∧
      (∀ x ∈ st.1, x ∈ (gs.foldl (jobIOGroupStep cfg) st).1) ∧
      (∀ g ∈ gs, ∀ e ∈ g.2, buildDatasetUrn cfg e.source_dataset true ∈
        (gs.foldl (jobIOGroupStep cfg) st).1) := by
  intro gs
  induction gs with
  | nil => exact fun st => ⟨fun fg hfg => Or.inl hfg, fun x hx => hx, by simp⟩
  | cons g gs ih =>
      intro st
      rw [List.foldl_cons]
      obtain ⟨ih1, ih2, ih3⟩ := ih (jobIOGroupStep cfg st g)
      obtain ⟨us1, us2, us3⟩ := upstreamFold_spec cfg g.2 (st.1, [])
      refine ⟨?_, ?_, ?_⟩
      · intro fg hfg
        rcases ih1 fg hfg with hin | ⟨g', hg', hconf, hups⟩
        · rcases jobIOGroupStep_fgl cfg st g fg hin with h0 | ⟨hconf, hups⟩
          · exact Or.inl h0
          · refine Or.inr ⟨g, List.mem_cons_self g gs, hconf, fun u hu => ?_⟩
            rw [hups] at hu
            rcases us1 u hu with h2 | h2
            · cases h2
            · exact h2
        · exact Or.inr ⟨g', List.mem_cons_of_mem _ hg', hconf, hups⟩
      · intro x hx
        refine ih2 x ?_
        rw [jobIOGroupStep_fst]
        exact us2 x hx
      · intro g' hg' e he
        rcases List.mem_cons.mp hg' with he0 | hgs
        · subst he0
          refine ih2 _ ?_
          rw [jobIOGroupStep_fst]
          exact us3 e he
        · exact ih3 g' hgs e he

theorem datasetLineageGroup_some (cfg : EmitterConfig)
    (targetUrn targetCol : String) (colEdges : List ColumnLineageEdge)
    (fgl : FineGrainedLineage)
    (hf : (datasetLineageGroup cfg targetUrn targetCol colEdges).2 = some fgl) :
    fgl.confidenceScore = minConfidence colEdges ∧
      ∀ u ∈ fgl.upstreams, ∃ e ∈ colEdges, e.source_column ≠ "*" ∧
        u = makeSchemaFieldUrn (buildDatasetUrn cfg e.source_dataset true)
          e.source_column := by
  simp only [datasetLineageGroup] at hf
  by_cases h : (colEdges.foldl (upstreamFoldStep cfg) ([], [])).2.isEmpty
  · rw [if_pos h] at hf
    cases hf
  · rw [if_neg h] at hf
    have he := Option.some_injective _ hf
    obtain ⟨us1, _, _⟩ := upstreamFold_spec cfg colEdges ([], [])
    refine ⟨by rw [← he], fun u hu => ?_⟩
    rw [← he] at hu
    rcases us1 u hu with h2 | h2
    · cases h2
    · exact h2

theorem datasetLineageColStep_fgl (cfg : EmitterConfig) (targetUrn : String) :
    ∀ byCol : List (String × List ColumnLineageEdge),
      ∀ st : List String × List FineGrainedLineage,
      ∀ fg ∈ (byCol.foldl (datasetLineageColStep cfg targetUrn) st).2,
        fg ∈ st.2 ∨ ∃ cg ∈ byCol,
          (datasetLineageGroup cfg targetUrn cg.1 cg.2).2 = some fg := by
  intro byCol
  induction byCol with
  | nil => exact fun st fg hfg => Or.inl hfg
  | cons cg cgs ih =>
      intro st fg hfg
      rw [List.foldl_cons] at hfg
      rcases ih (datasetLineageColStep cfg targetUrn st cg) fg hfg with hin |
        ⟨cg', hcg', hsome⟩
      · rw [datasetLineageColStep] at hin
        cases hg : (datasetLineageGroup cfg targetUrn cg.1 cg.2).2 with
        | none =>
            rw [hg] at hin
            exact Or.inl hin
        | some fgl =>
            rw [hg] at hin
            simp only [List.mem_append, List.mem_singleton] at hin
            rcases hin with hin | hin
            · exact Or.inl hin
            · exact Or.inr ⟨cg, List.mem_cons_self cg cgs, hin ▸ hg⟩
      · exact Or.inr ⟨cg', List.mem_cons_of_mem _ hcg', hsome⟩

/-- C10: in every fine-grained lineage group built for emission (both in
`_build_job_io` and in `emit_dataset_lineage`), every upstream schema-field
reference comes from an edge whose source column is not the wildcard `*`;
a wildcard edge contributes only its source-dataset URN to the input set. -/
theorem C10_wildcard_no_field_reference (cfg : EmitterConfig)
    (edges : List ColumnLineageEdge) :
    (∀ fg ∈ (buildJobIo cfg edges).2.2, ∀ u ∈ fg.upstreams,
      ∃ e ∈ edges, e.source_column ≠ "*" ∧
        u = makeSchemaFieldUrn (buildDatasetUrn cfg e.source_dataset true)
          e.source_column) ∧
    (∀ e ∈ edges, e.source_column = "*" →
      buildDatasetUrn cfg e.source_dataset true ∈ (buildJobIo cfg edges).1) ∧
    (∀ t ∈ emitDatasetLineage cfg edges, ∀ fg ∈ t.2.2, ∀ u ∈ fg.upstreams,
      ∃ e ∈ edges, e.source_column ≠ "*" ∧
        u = makeSchemaFieldUrn (buildDatasetUrn cfg e.source_dataset true)
          e.source_column) := by
  obtain ⟨f1, f2, f3⟩ := jobIO_fold_spec cfg
    (groupEdgesBy (fun e => e.target_dataset ++ "." ++ e.target_column) edges)
    ([], [], [])
  refine ⟨?_, ?_, ?_⟩
  · intro fg hfg u hu
    rcases f1 fg hfg with h0 | ⟨g, hg, _, hups⟩
    · cases h0
    · obtain ⟨e, he, hne, hurn⟩ := hups u hu
      exact ⟨e, (groupEdgesBy_mem _ edges g hg).1 e he, hne, hurn⟩
  · intro e he _
    obtain ⟨g, hg, heg⟩ := groupEdgesBy_covers
      (fun e => e.target_dataset ++ "." ++ e.target_column) edges e he
    exact f3 g hg e heg
  · intro t ht fg hfg u hu
    simp only [emitDatasetLineage, List.mem_filterMap] at ht
    obtain ⟨tg, htg, hsome⟩ := ht
    by_cases hne : ((groupEdgesBy (fun e => e.target_column) tg.2).foldl
        (datasetLineageColStep cfg (buildDatasetUrn cfg tg.1 false))
        ([], [])).1.isEmpty
    · rw [if_pos hne] at hsome
      cases hsome
    · rw [if_neg hne] at hsome
      have ht2 := Option.some_injective _ hsome
      have hfg2 : fg ∈ ((groupEdgesBy (fun e => e.target_column) tg.2).foldl
          (datasetLineageColStep cfg (buildDatasetUrn cfg tg.1 false))
          ([], [])).2 := by
        rw [← ht2] at hfg
        exact hfg
      rcases datasetLineageColStep_fgl cfg (buildDatasetUrn cfg tg.1 false)
        (groupEdgesBy (fun e => e.target_column) tg.2) ([], []) fg hfg2 with
        h0 | ⟨cg, hcg, hsome2⟩
      · cases h0
      · obtain ⟨_, hups⟩ := datasetLineageGroup_some cfg _ cg.1 cg.2 fg hsome2
        obtain ⟨e, he, hne2, hurn⟩ := hups u hu
        have he2 : e ∈ tg.2 := (groupEdgesBy_mem _ tg.2 cg hcg).1 e he
        exact ⟨e, (groupEdgesBy_mem _ edges tg htg).1 e he2, hne2, hurn⟩

end InfaLineage

namespace InfaLineage

/-- An emitter configuration used by concrete witnesses. -/
def sampleCfg : EmitterConfig := {}

/-- A wildcard (stored-procedure) edge used by concrete witnesses. -/
def wildcardEdge : ColumnLineageEdge :=
  { source_dataset := "S.PROC", source_column := "*", target_dataset := "T"
    target_column := "C"
    transformation_type := TransformationType.STORED_PROCEDURE }

/-- A plain column edge used by concrete witnesses. -/
def normalEdge : ColumnLineageEdge :=
  { source_dataset := "SRC", source_column := "A", target_dataset := "T"
    target_column := "C"
    transformation_type := TransformationType.EXPRESSION
    confidence_score := 19 / 20 }

/-- C10 witness: the wildcard edge's source dataset still reaches the
input-dataset set of `_build_job_io`. -/
theorem C10_wildcard_no_field_reference_witness :
    buildDatasetUrn sampleCfg "S.PROC" true ∈
      (buildJobIo sampleCfg [wildcardEdge, normalEdge]).1 :=
  (C10_wildcard_no_field_reference sampleCfg [wildcardEdge, normalEdge]).2.1
    wildcardEdge (by decide) (by decide)

/-! # Claim C4: confidence scores -/

theorem foldl_min_le_init (l : List ColumnLineageEdge) :
    ∀ a : ℚ, l.foldl (fun acc x => min acc x.confidence_score) a ≤ a := by
  induction l with
  | nil => intro a; simp
  | cons e es ih =>
      intro a
      rw [List.foldl_cons]
      exact le_trans (ih _) (min_le_left _ _)

theorem foldl_min_le_mem (l : List ColumnLineageEdge) :
    ∀ a : ℚ, ∀ x ∈ l,
      l.foldl (fun acc y => min acc y.confidence_score) a ≤
        x.confidence_score := by
  induction l with
  | nil => intro a x hx; cases hx
  | cons e es ih =>
      intro a x hx
      rw [List.foldl_cons]
      rcases List.mem_cons.mp hx with he | hes
      · subst he
        exact le_trans (foldl_min_le_init es _) (min_le_right _ _)
      · exact ih _ x hes

theorem foldl_min_eq_mem (l : List ColumnLineageEdge) :
    ∀ a : ℚ, l.foldl (fun acc y => min acc y.confidence_score) a = a ∨
      ∃ x ∈ l, l.foldl (fun acc y => min acc y.confidence_score) a =
        x.confidence_score := by
  induction l with
  | nil => intro a; exact Or.inl rfl
  | cons e es ih =>
      intro a
      rw [List.foldl_cons]
      rcases ih (min a e.confidence_score) with h | ⟨x, hx, hh⟩
      · rcases min_choice a e.confidence_score with hm | hm
        · exact Or.inl (by rw [h, hm])
        · exact Or.inr ⟨e, List.mem_cons_self _ _, by rw [h, hm]⟩
      · exact Or.inr ⟨x, List.mem_cons_of_mem _ hx, hh⟩

theorem minConfidence_le {edges : List ColumnLineageEdge} :
    ∀ e ∈ edges, minConfidence edges ≤ e.confidence_score := by
  intro e he
  cases edges with
  | nil => cases he
  | cons e0 es =>
      rw [minConfidence]
      rcases List.mem_cons.mp he with h | h
      · subst h
        exact foldl_min_le_init es _
      · exact foldl_min_le_mem es _ e h

theorem minConfidence_mem {edges : List ColumnLineageEdge} (h : edges ≠ []) :
    minConfidence edges ∈ edges.map ColumnLineageEdge.confidence_score := by
  cases edges with
  | nil => exact absurd rfl h
  | cons e0 es =>
      rw [minConfidence]
      rcases foldl_min_eq_mem es e0.confidence_score with hh | ⟨x, hx, hh⟩
      · rw [hh]
        exact List.mem_map_of_mem _ (List.mem_cons_self _ _)
      · rw [hh]
        exact List.mem_map_of_mem _ (List.mem_cons_of_mem _ hx)

/-- C4: edges from explicit connectors (the Source Definition and
standard branches) and from stored-procedure calls carry confidence
exactly 1.0; edges from SQL query-projection parsing carry exactly 0.95
(= 19/20); and every fine-grained lineage group emitted by
`_build_job_io` carries the minimum confidence over its group's edges. -/
theorem C4_confidence_scores :
    (∀ (tinfo : Option TransformationInfo) (tt tc : String)
        (step : TransformationStep) (e : ColumnLineageEdge),
      e ∈ buildStoredProcLineage tinfo tt tc step →
        e.confidence_score = 1) ∧
    (∀ (sqlParse : String → SqlParseResult) (fo : FolderInfo)
        (sql tt tc : String) (step : TransformationStep)
        (e : ColumnLineageEdge),
      (detectStoredProcedureCall sql).isSome →
      e ∈ parseSqlLineage sqlParse fo sql tt tc step →
        e.confidence_score = 1) ∧
    (∀ (sqlParse : String → SqlParseResult) (fo : FolderInfo)
        (sql tt tc : String) (step : TransformationStep)
        (e : ColumnLineageEdge),
      detectStoredProcedureCall sql = none →
      e ∈ parseSqlLineage sqlParse fo sql tt tc step →
        e.confidence_score = 19 / 20) ∧
    (∀ (sd : SourceDefinition) (tdef : TargetDefinition) (tc : String)
        (step : TransformationStep) (e : ColumnLineageEdge),
      e ∈ sourceDefinitionEdges sd tdef tc step → e.confidence_score = 1) ∧
    (∀ (fo : FolderInfo) (m : MappingInfo) (tdef : TargetDefinition)
        (tc : String) (step : TransformationStep) (e : ColumnLineageEdge),
      e ∈ standardStepEdges fo m tdef tc step → e.confidence_score = 1) ∧
    (∀ (cfg : EmitterConfig) (edges : List ColumnLineageEdge)
        (fg : FineGrainedLineage),
      fg ∈ (buildJobIo cfg edges).2.2 →
      ∃ grp ∈ groupEdgesBy
          (fun e => e.target_dataset ++ "." ++ e.target_column) edges,
        fg.confidenceScore = minConfidence grp.2 ∧
        minConfidence grp.2 ∈
          grp.2.map ColumnLineageEdge.confidence_score ∧
        (∀ e ∈ grp.2, minConfidence grp.2 ≤ e.confidence_score)) := by
  refine ⟨?_, ?_, ?_, ?_, ?_, ?_⟩
  · intro tinfo tt tc step e he
    cases tinfo with
    | none => cases he
    | some t =>
        cases hn : t.stored_proc_name with
        | none => simp [buildStoredProcLineage, hn] at he
        | some procName =>
            by_cases hp : procName = ""
            · simp [buildStoredProcLineage, hn, hp] at he
            · simp only [buildStoredProcLineage, hn, if_neg hp,
                List.mem_singleton] at he
              rw [he]
  · intro sqlParse fo sql tt tc step e hdet he
    cases hd : detectStoredProcedureCall sql with
    | none => rw [hd] at hdet; cases hdet
    | some sp =>
        obtain ⟨schema, procName⟩ := sp
        simp only [parseSqlLineage, hd, List.mem_singleton] at he
        rw [he]
  · intro sqlParse fo sql tt tc step e hdet he
    simp only [parseSqlLineage, hdet] at he
    obtain ⟨row, _, hrow⟩ := List.mem_flatMap.mp he
    by_cases hcol : strUpper row.2.1 = strUpper tc
    · rw [if_pos hcol] at hrow
      obtain ⟨tcpair, _, hm⟩ := List.mem_filterMap.mp hrow
      cases hs : assocGet tcpair.1 fo.sources with
      | none => rw [hs] at hm; cases hm
      | some sourceDef =>
          rw [hs] at hm
          rw [← Option.some_injective _ hm]
    · rw [if_neg hcol] at hrow
      cases hrow
  · intro sd tdef tc step e he
    obtain ⟨ffp, _, hm⟩ := List.mem_map.mp he
    rw [← hm]
  · intro fo m tdef tc step e he
    obtain ⟨ffp, _, hm⟩ := List.mem_filterMap.mp he
    cases hs : findSourceForInstance fo m ffp.1 ffp.2 with
    | none => rw [hs] at hm; cases hm
    | some si =>
        rw [hs] at hm
        rw [← Option.some_injective _ hm]
  · intro cfg edges fg hfg
    obtain ⟨f1, _, _⟩ := jobIO_fold_spec cfg
      (groupEdgesBy (fun e => e.target_dataset ++ "." ++ e.target_column)
        edges) ([], [], [])
    rcases f1 fg hfg with h0 | ⟨g, hg, hconf, _⟩
    · cases h0
    · have hne := (groupEdgesBy_mem _ edges g hg).2
      exact ⟨g, hg, hconf, minConfidence_mem hne, fun e he =>
        minConfidence_le e he⟩

end InfaLineage

namespace InfaLineage

/-- A folder with one known source table, for the C4 witness. -/
def sqlFolder : FolderInfo :=
  { name := "F"
    sources := [("CUSTOMERS",
      { name := "CUSTOMERS"
        fields := [("CUSTOMER_ID",
          { name := "CUSTOMER_ID", datatype := "number" })] })] }

/-- An abstract SQL-parser result used by the C4 witness. -/
def sampleSqlParse : String → SqlParseResult :=
  fun _ => [([("CUSTOMERS", "CUSTOMER_ID")], "C", some "c.CUSTOMER_ID")]

/-- C4 witness: a concrete query-projection edge carries 0.95 and a
concrete stored-procedure edge carries 1.0. -/
theorem C4_confidence_scores_witness :
    ({ source_dataset := "CUSTOMERS", source_column := "CUSTOMER_ID"
       target_dataset := "TGT", target_column := "C"
       transformation_type := TransformationType.SOURCE_QUALIFIER
       transformation_expression := some "c.CUSTOMER_ID"
       confidence_score := 19 / 20
       step_order := 3 } : ColumnLineageEdge).confidence_score = 19 / 20 ∧
    ({ source_dataset := "PKG.GET_KEY", source_column := "*"
       target_dataset := "TGT", target_column := "C"
       transformation_type := TransformationType.STORED_PROCEDURE
       transformation_expression := some "EXEC PKG.GET_KEY"
       confidence_score := 1
       step_order := 3 } : ColumnLineageEdge).confidence_score = 1 :=
  ⟨C4_confidence_scores.2.2.1 sampleSqlParse sqlFolder
      "SELECT CUSTOMER_ID FROM CUSTOMERS" "TGT" "C" sampleStep _
      (by rfl)
      (by
        have h : parseSqlLineage sampleSqlParse sqlFolder
            "SELECT CUSTOMER_ID FROM CUSTOMERS" "TGT" "C" sampleStep =
            [{ source_dataset := "CUSTOMERS", source_column := "CUSTOMER_ID"
               target_dataset := "TGT", target_column := "C"
               transformation_type := TransformationType.SOURCE_QUALIFIER
               transformation_expression := some "c.CUSTOMER_ID"
               confidence_score := 19 / 20
               step_order := 3 }] := rfl
        rw [h]
        exact List.mem_singleton_self _),
    C4_confidence_scores.1
      (some { name := "SP", type := TransformationType.STORED_PROCEDURE
              stored_proc_name := some "GET_KEY"
              stored_proc_schema := some "PKG" })
      "TGT" "C" sampleStep _
      (by
        have h : buildStoredProcLineage
            (some { name := "SP"
                    type := TransformationType.STORED_PROCEDURE
                    stored_proc_name := some "GET_KEY"
                    stored_proc_schema := some "PKG" }) "TGT" "C" sampleStep =
            [{ source_dataset := "PKG.GET_KEY", source_column := "*"
               target_dataset := "TGT", target_column := "C"
               transformation_type := TransformationType.STORED_PROCEDURE
               transformation_expression := some "EXEC PKG.GET_KEY"
               confidence_score := 1
               step_order := 3 }] := rfl
        rw [h]
        exact List.mem_singleton_self _)⟩

end InfaLineage

/-! # Claim C3: unqualified-column resolution (corrected) -/

namespace InfaLineage

/-- C3 counterexample: with known tables `A{X}` and `B{X}` — the
unqualified column `X` is ambiguous across two known tables — a query
whose FROM clause references only `A` still resolves `X` to `A` and
produces the upstream pair `(A, X)`: the single-table FROM short-circuit
(line 679-680) fires before `_resolve_column_table`, so the reference is
not excluded as the claim states. -/
theorem C3_counterexample_ambiguous_column_resolved :
    (resolveColumnTableCandidates "X" [("A", ["X"]), ("B", ["X"])]).length
        = 2 ∧
    projectionUpstreams ⟨"X", [⟨"X", ""⟩], "X"⟩
        (buildSourceRefs [⟨"A", ""⟩] ["A", "B"]) [("A", ["X"]), ("B", ["X"])]
      = [("A", "X")] :=
  ⟨rfl, rfl⟩

/-- C3 amended: the single-known-table rule governs an unqualified column
only when the FROM clause does not reference exactly one table (with a
single referenced table the column resolves to it unconditionally).  In
that case the column resolves to the single known table whose field set
contains it case-insensitively, and with zero or several candidates the
reference is excluded: it yields no `(table, column)` upstream pair. -/
theorem C3_amended_unqualified_resolution (col : ColumnRef)
    (sourceRefs : List (String × String))
    (sourceTables : List (String × List String))
    (hunq : col.table = "") (hsr : sourceRefs.length ≠ 1) :
    (∀ t, resolveColumnTableCandidates col.name sourceTables = [t] →
      resolveColumn col sourceRefs sourceTables = some t) ∧
    ((resolveColumnTableCandidates col.name sourceTables).length ≠ 1 →
      resolveColumn col sourceRefs sourceTables = none ∧
      ∀ oc et : String,
        projectionUpstreams ⟨oc, [col], et⟩ sourceRefs sourceTables = []) := by
  have hrc : resolveColumn col sourceRefs sourceTables =
      resolveColumnTable col.name sourceTables := by
    cases sourceRefs with
    | nil => simp [resolveColumn, hunq]
    | cons r rs =>
        cases rs with
        | nil => exact absurd rfl hsr
        | cons r2 rs2 => simp [resolveColumn, hunq]
  constructor
  · intro t ht
    rw [hrc, resolveColumnTable, ht]
  · intro hlen
    have hnone : resolveColumn col sourceRefs sourceTables = none := by
      rw [hrc, resolveColumnTable]
      cases hcand : resolveColumnTableCandidates col.name sourceTables with
      | nil => rfl
      | cons c cs =>
          cases cs with
          | nil => exact absurd (by simp [hcand]) hlen
          | cons c2 cs2 => rfl
    refine ⟨hnone, fun oc et => ?_⟩
    simp [projectionUpstreams, hnone]

/-- C3 witness: two tables in FROM, the unqualified `X` ambiguous across
both known tables — the reference is excluded. -/
theorem C3_amended_unqualified_resolution_witness :
    resolveColumn ⟨"X", ""⟩ [("A", "A"), ("B", "B")]
      [("A", ["X"]), ("B", ["X"])] = none :=
  ((C3_amended_unqualified_resolution ⟨"X", ""⟩ [("A", "A"), ("B", "B")]
    [("A", ["X"]), ("B", ["X"])] rfl (by decide)).2 (by decide)).1

/-! # Claim C5: Source-kind nodes and branch termination (corrected) -/

/-- The folder of the C5 counterexample. -/
def srcFolder : FolderInfo := { name := "F" }

/-- The C5 counterexample mapping: the Source Definition instance `S` has
an incoming connector from the Expression instance `E`. -/
def srcMapping : MappingInfo :=
  { name := "M"
    instances :=
      [("S", { name := "S", transformation_name := "SRC"
               transformation_type := TransformationType.SOURCE_DEFINITION }),
       ("E", { name := "E", transformation_name := "EXP"
               transformation_type := TransformationType.EXPRESSION })]
    connectors :=
      [⟨"E", "Expression", "F", "S", "Source Definition", "G"⟩] }

/-- C5 counterexample: `_trace_field_lineage` never dispatches on node
kind — tracing the Source-kind node `S` with an incoming connector
recorded for field `G` follows that edge upstream and records a second
step at `E`, so the branch does not terminate at the Source node. -/
theorem C5_counterexample_source_traced_through :
    (assocGet "S" srcMapping.instances).map InstanceInfo.transformation_type
        = some TransformationType.SOURCE_DEFINITION ∧
    (traceFieldLineage srcFolder srcMapping "S" "G"
        (buildInstanceGraph srcMapping.connectors)).map
      TransformationStep.instance_name = ["S", "E"] :=
  ⟨rfl, rfl⟩

/-- C5 amended: the tracer does not dispatch on node kind; a branch
terminates at a node exactly when no upstream connector is recorded for
the (node, field) pair.  In particular a Source-kind node with no
incoming connector for the traced field (the invariable case in real
exports) is a root: the trace records its single step with empty inputs
and follows no further edges. -/
theorem C5_amended_source_root (fo : FolderInfo) (m : MappingInfo)
    (g : InstanceGraph) (ti tf : String) (info : InstanceInfo)
    (hinst : assocGet ti m.instances = some info)
    (hkind : info.transformation_type =
      TransformationType.SOURCE_DEFINITION)
    (hups : graphLookup g ti tf = []) :
    traceFieldLineage fo m ti tf g =
      [⟨0, ti, info.transformation_type, [], [(ti, tf)],
        traceExpr fo m info tf⟩] := by
  have hfuel : defaultTraceFuel m = m.connectors.length + 1 + 1 := rfl
  rw [traceFieldLineage, hfuel]
  simp [traceAux, hinst, hups, traceSiblings, visitKey]

/-- C5 witness: a lone Source instance with no connectors. -/
theorem C5_amended_source_root_witness :
    traceFieldLineage srcFolder
      { name := "M0"
        instances := [("S",
          { name := "S", transformation_name := "SRC"
            transformation_type := TransformationType.SOURCE_DEFINITION })] }
      "S" "G" (buildInstanceGraph []) =
      [⟨0, "S", TransformationType.SOURCE_DEFINITION, [], [("S", "G")],
        none⟩] := by
  have h := C5_amended_source_root srcFolder
    { name := "M0"
      instances := [("S",
        { name := "S", transformation_name := "SRC"
          transformation_type := TransformationType.SOURCE_DEFINITION })] }
    (buildInstanceGraph []) "S" "G"
    { name := "S", transformation_name := "SRC"
      transformation_type := TransformationType.SOURCE_DEFINITION }
    (by decide) rfl rfl
  simpa using h

end InfaLineage

/-! # Claim C1: trace termination and the visit bound -/

namespace InfaLineage

/-- The visited-set key recorded by a step (its single output pair). -/
def stepKey (s : TransformationStep) : String :=
  match s.output_fields with
  | [p] => visitKey p.1 p.2
  | _ => ""

/-- All upstream pairs stored anywhere in an instance graph. -/
def gPairs (g : InstanceGraph) : List (String × String) :=
  g.flatMap (fun entry => entry.2.flatMap (fun fe => fe.2))

/-- The visited-set keys of all upstream pairs of a graph. -/
def gKeys (g : InstanceGraph) : List String :=
  (gPairs g).map (fun p => visitKey p.1 p.2)

/-- The `(from_instance, from_field)` pairs of a connector list. -/
def connectorFromPairs (cs : List ConnectorInfo) : List (String × String) :=
  cs.map (fun c => (c.from_instance, c.from_field))

theorem assocGet_mem {α : Type} {k : String} {l : List (String × α)} {v : α}
    (h : assocGet k l = some v) : (k, v) ∈ l := by
  induction l with
  | nil => cases h
  | cons hd tl ih =>
      obtain ⟨k', v'⟩ := hd
      by_cases hk : k' = k
      · subst hk
        rw [assocGet, if_pos rfl] at h
        exact (Option.some_injective _ h) ▸ List.mem_cons_self _ _
      · rw [assocGet, if_neg hk] at h
        exact List.mem_cons_of_mem _ (ih h)

theorem assocGet_isSome_mem {α : Type} {k : String} {l : List (String × α)}
    {v : α} (h : assocGet k l = some v) : k ∈ l.map Prod.fst :=
  List.mem_map_of_mem Prod.fst (assocGet_mem h)

theorem graphLookup_subset_gPairs (g : InstanceGraph) (ti tf : String) :
    ∀ p ∈ graphLookup g ti tf, p ∈ gPairs g := by
  intro p hp
  rw [graphLookup_eq] at hp
  cases hg : assocGet ti g with
  | none =>
      rw [hg] at hp
      simp [assocGet] at hp
  | some inner =>
      rw [hg, Option.getD_some] at hp
      cases hf : assocGet tf inner with
      | none => rw [hf] at hp; cases hp
      | some l =>
          rw [hf, Option.getD_some] at hp
          exact List.mem_flatMap.mpr ⟨(ti, inner), assocGet_mem hg,
            List.mem_flatMap.mpr ⟨(tf, l), assocGet_mem hf, hp⟩⟩

theorem gPairs_addConnector {g : InstanceGraph} {q : String × String}
    {k k2 : String} :
    ∀ p ∈ gPairs (assocUpdate k (assocUpdate k2 (fun l => l ++ [q]) []) [] g),
      p ∈ gPairs g ∨ p = q := by
  intro p hp
  obtain ⟨entry, hentry, hpe⟩ := List.mem_flatMap.mp hp
  obtain ⟨fe, hfe, hpf⟩ := List.mem_flatMap.mp hpe
  rcases mem_assocUpdate hentry with h | ⟨v, hv, he⟩ | he
  · exact Or.inl (List.mem_flatMap.mpr ⟨entry, h, List.mem_flatMap.mpr
      ⟨fe, hfe, hpf⟩⟩)
  · subst he
    rcases mem_assocUpdate hfe with h2 | ⟨w, hw, he2⟩ | he2
    · exact Or.inl (List.mem_flatMap.mpr ⟨(k, v), hv, List.mem_flatMap.mpr
        ⟨fe, h2, hpf⟩⟩)
    · subst he2
      rcases List.mem_append.mp hpf with h3 | h3
      · exact Or.inl (List.mem_flatMap.mpr ⟨(k, v), hv, List.mem_flatMap.mpr
          ⟨(k2, w), hw, h3⟩⟩)
      · exact Or.inr (List.mem_singleton.mp h3)
    · subst he2
      exact Or.inr (List.mem_singleton.mp (by simpa using hpf))
  · subst he
    simp only [assocUpdate, List.nil_append] at hfe
    rw [List.mem_singleton.mp hfe] at hpf
    exact Or.inr (List.mem_singleton.mp hpf)

theorem gPairs_build_subset (cs : List ConnectorInfo) :
    ∀ p ∈ gPairs (buildInstanceGraph cs), p ∈ connectorFromPairs cs := by
  induction cs using List.reverseRecOn with
  | nil => intro p hp; cases hp
  | append_singleton cs c ih =>
      have hb : buildInstanceGraph (cs ++ [c]) =
          assocUpdate c.to_instance
            (assocUpdate c.to_field
              (fun l => l ++ [(c.from_instance, c.from_field)]) [])
            [] (buildInstanceGraph cs) := by
        simp [buildInstanceGraph, List.foldl_concat]
      intro p hp
      rw [hb] at hp
      simp only [connectorFromPairs, List.map_append]
      rcases gPairs_addConnector p hp with h | h
      · exact List.mem_append_left _ (ih p h)
      · rw [h]
        exact List.mem_append_right _ (by simp)

/-- Per-step well-formedness recorded by the trace: the step belongs to a
known instance, outputs its own (instance, field) pair, and that field is
either the traced target field or stored in the graph. -/
def StepOk (m : MappingInfo) (g : InstanceGraph) (tf0 : String)
    (s : TransformationStep) : Prop :=
  s.instance_name ∈ m.instances.map Prod.fst ∧
  ∃ f, s.output_fields = [(s.instance_name, f)] ∧
    stepKey s = visitKey s.instance_name f ∧
    (f = tf0 ∨ f ∈ (gPairs g).map Prod.snd)

/-- The invariant of one trace call: the visited set grows by a
duplicate-free block of fresh keys, the emitted steps have pairwise
distinct keys all drawn from that block, and each step is well-formed. -/
def TraceOut (m : MappingInfo) (g : InstanceGraph) (tf0 : String)
    (vis : List String) (out : List TransformationStep × List String) :
    Prop :=
  ∃ ks : List String, out.2 = ks ++ vis ∧ ks.Nodup ∧ (∀ k ∈ ks, k ∉ vis) ∧
    (out.1.map stepKey).Nodup ∧ (∀ s ∈ out.1, stepKey s ∈ ks) ∧
    (∀ s ∈ out.1, StepOk m g tf0 s)

theorem traceSiblings_out (m : MappingInfo) (g : InstanceGraph) (tf0 : String)
    (rec : String → String → List String →
      List TransformationStep × List String)
    (hrec : ∀ a b v, (a, b) ∈ gPairs g → TraceOut m g tf0 v (rec a b v)) :
    ∀ ups : List (String × String), ∀ vis : List String,
      (∀ p ∈ ups, p ∈ gPairs g) →
      TraceOut m g tf0 vis (traceSiblings rec ups vis) := by
  intro ups
  induction ups with
  | nil =>
      intro vis _
      refine ⟨[], rfl, List.nodup_nil, ?_, ?_, ?_, ?_⟩
      · intro k hk; cases hk
      · show (([] : List TransformationStep).map stepKey).Nodup
        simp
      · intro s hs; cases hs
      · intro s hs; cases hs
  | cons p rest ih =>
      intro vis hups
      obtain ⟨ks1, hv1, hnd1, hfresh1, hsnd1, hsk1, hok1⟩ :=
        hrec p.1 p.2 vis (hups p (List.mem_cons_self p rest))
      obtain ⟨ks2, hv2, hnd2, hfresh2, hsnd2, hsk2, hok2⟩ :=
        ih (rec p.1 p.2 vis).2 (fun q hq => hups q (List.mem_cons_of_mem _ hq))
      refine ⟨ks2 ++ ks1, ?_, ?_, ?_, ?_, ?_, ?_⟩
      · show (traceSiblings rec (p :: rest) vis).2 = (ks2 ++ ks1) ++ vis
        rw [traceSiblings]
        rw [hv2, hv1, List.append_assoc]
      · refine List.Nodup.append hnd2 hnd1 (fun k hk2 hk1 => ?_)
        exact hfresh2 k hk2 (hv1 ▸ List.mem_append_left _ hk1)
      · intro k hk
        rcases List.mem_append.mp hk with h | h
        · exact fun hkv => hfresh2 k h (hv1 ▸ List.mem_append_right _ hkv)
        · exact hfresh1 k h
      · show ((traceSiblings rec (p :: rest) vis).1.map stepKey).Nodup
        rw [traceSiblings]
        simp only [List.map_append]
        refine List.Nodup.append hsnd1 hsnd2 (fun k hk1 hk2 => ?_)
        obtain ⟨s1, hs1, hks1⟩ := List.mem_map.mp hk1
        obtain ⟨s2, hs2, hks2⟩ := List.mem_map.mp hk2
        have h1 : k ∈ ks1 := hks1 ▸ hsk1 s1 hs1
        have h2 : k ∈ ks2 := hks2 ▸ hsk2 s2 hs2
        exact hfresh2 k h2 (hv1 ▸ List.mem_append_left _ h1)
      · intro s hs
        rw [traceSiblings] at hs
        rcases List.mem_append.mp hs with h | h
        · exact List.mem_append_right _ (hsk1 s h)
        · exact List.mem_append_left _ (hsk2 s h)
      · intro s hs
        rw [traceSiblings] at hs
        rcases List.mem_append.mp hs with h | h
        · exact hok1 s h
        · exact hok2 s h

theorem traceAux_out (fo : FolderInfo) (m : MappingInfo) (g : InstanceGraph)
    (tf0 : String) :
    ∀ fuel : Nat, ∀ ti tf : String, ∀ vis : List String, ∀ so : Nat,
      (tf = tf0 ∨ (ti, tf) ∈ gPairs g) →
      TraceOut m g tf0 vis (traceAux fuel fo m g ti tf vis so) := by
  intro fuel
  induction fuel with
  | zero =>
      intro ti tf vis so _
      refine ⟨[], rfl, List.nodup_nil, ?_, ?_, ?_, ?_⟩
      · intro k hk; cases hk
      · show (([] : List TransformationStep).map stepKey).Nodup
        simp
      · intro s hs; cases hs
      · intro s hs; cases hs
  | succ fuel ih =>
      intro ti tf vis so horigin
      by_cases hkey : visitKey ti tf ∈ vis
      · refine ⟨[], ?_, List.nodup_nil, ?_, ?_, ?_, ?_⟩
        · show (traceAux (fuel + 1) fo m g ti tf vis so).2 = [] ++ vis
          simp [traceAux, hkey]
        · intro k hk; cases hk
        · show ((traceAux (fuel + 1) fo m g ti tf vis so).1.map stepKey).Nodup
          simp [traceAux, hkey]
        · intro s hs
          simp [traceAux, hkey] at hs
        · intro s hs
          simp [traceAux, hkey] at hs
      · cases hinst : assocGet ti m.instances with
        | none =>
            refine ⟨[visitKey ti tf], ?_, List.nodup_singleton _,
              by simpa using hkey, ?_, by simp [traceAux, hkey, hinst], ?_⟩
            · show (traceAux (fuel + 1) fo m g ti tf vis so).2 =
                [visitKey ti tf] ++ vis
              simp [traceAux, hkey, hinst]
            · show ((traceAux (fuel + 1) fo m g ti tf vis so).1.map
                stepKey).Nodup
              simp [traceAux, hkey, hinst]
            · intro s hs
              simp [traceAux, hkey, hinst] at hs
        | some info =>
            have hsib := traceSiblings_out m g tf0
              (fun fi ff v => traceAux fuel fo m g fi ff v (so + 1))
              (fun a b v hab => ih a b v (so + 1) (Or.inr hab))
              (graphLookup g ti tf) (visitKey ti tf :: vis)
              (graphLookup_subset_gPairs g ti tf)
            obtain ⟨ks2, hv2, hnd2, hfresh2, hsnd2, hsk2, hok2⟩ := hsib
            have hres : traceAux (fuel + 1) fo m g ti tf vis so =
                (⟨so, ti, info.transformation_type, graphLookup g ti tf,
                  [(ti, tf)], traceExpr fo m info tf⟩ ::
                  (traceSiblings
                    (fun fi ff v => traceAux fuel fo m g fi ff v (so + 1))
                    (graphLookup g ti tf) (visitKey ti tf :: vis)).1,
                 (traceSiblings
                    (fun fi ff v => traceAux fuel fo m g fi ff v (so + 1))
                    (graphLookup g ti tf) (visitKey ti tf :: vis)).2) := by
              simp [traceAux, hkey, hinst]
            have hkeyfresh : visitKey ti tf ∉ ks2 := fun hk =>
              hfresh2 _ hk (List.mem_cons_self _ _)
            refine ⟨ks2 ++ [visitKey ti tf], ?_, ?_, ?_, ?_, ?_, ?_⟩
            · rw [hres]
              show (traceSiblings _ (graphLookup g ti tf)
                (visitKey ti tf :: vis)).2 = (ks2 ++ [visitKey ti tf]) ++ vis
              rw [hv2]
              simp
            · exact List.Nodup.append hnd2 (List.nodup_singleton _)
                (fun k hk2 hk1 => hkeyfresh ((List.mem_singleton.mp hk1) ▸ hk2))
            · intro k hk
              rcases List.mem_append.mp hk with h | h
              · exact fun hkv =>
                  hfresh2 k h (List.mem_cons_of_mem _ hkv)
              · exact (List.mem_singleton.mp h) ▸ hkey
            · rw [hres]
              show ((⟨so, ti, info.transformation_type, graphLookup g ti tf,
                  [(ti, tf)], traceExpr fo m info tf⟩ ::
                  (traceSiblings _ (graphLookup g ti tf)
                    (visitKey ti tf :: vis)).1).map stepKey).Nodup
              rw [List.map_cons, List.nodup_cons]
              constructor
              · intro hmem
                obtain ⟨s, hs, hks⟩ := List.mem_map.mp hmem
                have : stepKey (⟨so, ti, info.transformation_type,
                    graphLookup g ti tf, [(ti, tf)],
                    traceExpr fo m info tf⟩ : TransformationStep) =
                    visitKey ti tf := rfl
                rw [this] at hks
                exact hkeyfresh (hks ▸ hsk2 s hs)
              · exact hsnd2
            · rw [hres]
              intro s hs
              rcases List.mem_cons.mp hs with he | hmem
              · rw [he]
                exact List.mem_append_right _ (List.mem_singleton_self _)
              · exact List.mem_append_left _ (hsk2 s hmem)
            · rw [hres]
              intro s hs
              rcases List.mem_cons.mp hs with he | hmem
              · rw [he]
                refine ⟨List.mem_map_of_mem _ (assocGet_mem hinst), tf, rfl,
                  rfl, ?_⟩
                rcases horigin with h | h
                · exact Or.inl h
                · exact Or.inr (List.mem_map_of_mem _ h)
              · exact hok2 s hmem

end InfaLineage

namespace InfaLineage

theorem traceAux_vis_grows (fo : FolderInfo) (m : MappingInfo)
    (g : InstanceGraph) (fuel : Nat) (ti tf : String) (vis : List String)
    (so : Nat) :
    ∃ ks, (traceAux fuel fo m g ti tf vis so).2 = ks ++ vis := by
  obtain ⟨ks, hks, _⟩ := traceAux_out fo m g tf fuel ti tf vis so (Or.inl rfl)
  exact ⟨ks, hks⟩

theorem traceSiblings_stable (fo : FolderInfo) (m : MappingInfo)
    (g : InstanceGraph) (U : List String) (n a b : Nat) (so : Nat)
    (hrec : ∀ ti tf vis, visitKey ti tf ∈ U →
      (U.toFinset \ vis.toFinset).card ≤ n →
      traceAux a fo m g ti tf vis so = traceAux b fo m g ti tf vis so)
    (hU : ∀ k ∈ gKeys g, k ∈ U) :
    ∀ ups : List (String × String), ∀ vis : List String,
      (∀ p ∈ ups, p ∈ gPairs g) → (U.toFinset \ vis.toFinset).card ≤ n →
      traceSiblings (fun fi ff v => traceAux a fo m g fi ff v so) ups vis =
        traceSiblings (fun fi ff v => traceAux b fo m g fi ff v so) ups
          vis := by
  intro ups
  induction ups with
  | nil => intro vis _ _; rfl
  | cons p rest ih =>
      intro vis hups hcard
      have hkeyU : visitKey p.1 p.2 ∈ U :=
        hU _ (List.mem_map_of_mem _ (hups p (List.mem_cons_self p rest)))
      have h1 : traceAux a fo m g p.1 p.2 vis so =
          traceAux b fo m g p.1 p.2 vis so := hrec p.1 p.2 vis hkeyU hcard
      obtain ⟨ks, hks⟩ := traceAux_vis_grows fo m g b p.1 p.2 vis so
      have hcard2 : (U.toFinset \
          (traceAux b fo m g p.1 p.2 vis so).2.toFinset).card ≤ n := by
        refine le_trans (Finset.card_le_card ?_) hcard
        intro x hx
        rw [Finset.mem_sdiff] at hx ⊢
        refine ⟨hx.1, fun hc => hx.2 ?_⟩
        rw [List.mem_toFinset] at hc ⊢
        rw [hks]
        exact List.mem_append_right _ hc
      simp only [traceSiblings]
      rw [h1, ih (traceAux b fo m g p.1 p.2 vis so).2
        (fun q hq => hups q (List.mem_cons_of_mem _ hq)) hcard2]

theorem traceAux_stable (fo : FolderInfo) (m : MappingInfo)
    (g : InstanceGraph) (U : List String) (hU : ∀ k ∈ gKeys g, k ∈ U) :
    ∀ n : Nat, ∀ fuel₁ fuel₂ : Nat, ∀ ti tf : String, ∀ vis : List String,
      ∀ so : Nat,
      visitKey ti tf ∈ U → (U.toFinset \ vis.toFinset).card ≤ n →
      n < fuel₁ → n < fuel₂ →
      traceAux fuel₁ fo m g ti tf vis so =
        traceAux fuel₂ fo m g ti tf vis so := by
  intro n
  induction n with
  | zero =>
      intro fuel₁ fuel₂ ti tf vis so hkeyU hcard h1 h2
      have hsub : U.toFinset \ vis.toFinset = ∅ :=
        Finset.card_eq_zero.mp (Nat.le_antisymm hcard (Nat.zero_le _))
      have hkv : visitKey ti tf ∈ vis := by
        by_contra hkv
        have hm : visitKey ti tf ∈ U.toFinset \ vis.toFinset :=
          Finset.mem_sdiff.mpr ⟨List.mem_toFinset.mpr hkeyU,
            fun hc => hkv (List.mem_toFinset.mp hc)⟩
        rw [hsub] at hm
        exact absurd hm (Finset.not_mem_empty _)
      obtain ⟨x, rfl⟩ : ∃ x, fuel₁ = x + 1 := ⟨fuel₁ - 1, by omega⟩
      obtain ⟨y, rfl⟩ : ∃ y, fuel₂ = y + 1 := ⟨fuel₂ - 1, by omega⟩
      simp [traceAux, hkv]
  | succ n ihn =>
      intro fuel₁ fuel₂ ti tf vis so hkeyU hcard h1 h2
      obtain ⟨x, rfl⟩ : ∃ x, fuel₁ = x + 1 := ⟨fuel₁ - 1, by omega⟩
      obtain ⟨y, rfl⟩ : ∃ y, fuel₂ = y + 1 := ⟨fuel₂ - 1, by omega⟩
      by_cases hkv : visitKey ti tf ∈ vis
      · simp [traceAux, hkv]
      · cases hinst : assocGet ti m.instances with
        | none => simp [traceAux, hkv, hinst]
        | some info =>
            have hmem : visitKey ti tf ∈ U.toFinset \ vis.toFinset :=
              Finset.mem_sdiff.mpr ⟨List.mem_toFinset.mpr hkeyU,
                fun hc => hkv (List.mem_toFinset.mp hc)⟩
            have hcard1 : (U.toFinset \
                (visitKey ti tf :: vis).toFinset).card ≤ n := by
              have he : U.toFinset \ (visitKey ti tf :: vis).toFinset =
                  (U.toFinset \ vis.toFinset).erase (visitKey ti tf) := by
                ext z
                simp only [Finset.mem_sdiff, Finset.mem_erase,
                  List.toFinset_cons, Finset.mem_insert, List.mem_toFinset]
                tauto
              rw [he, Finset.card_erase_of_mem hmem]
              omega
            have hsib := traceSiblings_stable fo m g U n x y (so + 1)
              (fun ti' tf' vis' hk hc =>
                ihn x y ti' tf' vis' (so + 1) hk hc (by omega) (by omega))
              hU (graphLookup g ti tf) (visitKey ti tf :: vis)
              (graphLookup_subset_gPairs g ti tf) hcard1
            simp only [traceAux]
            rw [if_neg hkv, if_neg hkv]
            simp only [hinst, hsib]

end InfaLineage

namespace InfaLineage

/-- C1: tracing a target field terminates — the result is unchanged by any
additional fuel beyond the default (the recursion depth is bounded because
each level marks a fresh visited key) — each (node, field) pair yields at
most one step (the step keys are pairwise distinct), and the number of
recorded steps is bounded by |nodes| × |fields| (distinct instance names
times distinct candidate fields: the target field and the connectors'
from-fields). -/
theorem C1_trace_termination_and_bound (fo : FolderInfo) (m : MappingInfo)
    (ti tf : String) :
    ((traceFieldLineage fo m ti tf (buildInstanceGraph m.connectors)).map
      stepKey).Nodup ∧
    (traceFieldLineage fo m ti tf (buildInstanceGraph m.connectors)).length ≤
      (m.instances.map Prod.fst).dedup.length *
        (tf :: m.connectors.map ConnectorInfo.from_field).dedup.length ∧
    ∀ extra : Nat,
      (traceAux (defaultTraceFuel m + extra) fo m
        (buildInstanceGraph m.connectors) ti tf [] 0).1 =
        traceFieldLineage fo m ti tf (buildInstanceGraph m.connectors) := by
  obtain ⟨ks, hks, hnd, hfresh, hsnd, hsk, hok⟩ :=
    traceAux_out fo m (buildInstanceGraph m.connectors) tf
      (defaultTraceFuel m) ti tf [] 0 (Or.inl rfl)
  refine ⟨hsnd, ?_, ?_⟩
  · set g := buildInstanceGraph m.connectors with hg
    set steps := traceFieldLineage fo m ti tf g with hsteps
    have hlen : steps.length = (steps.map stepKey).length :=
      (List.length_map _ _).symm
    have hcard : (steps.map stepKey).toFinset.card =
        (steps.map stepKey).length :=
      List.toFinset_card_of_nodup hsnd
    have hsubimg : (steps.map stepKey).toFinset ⊆
        Finset.image (fun p : String × String => visitKey p.1 p.2)
          ((m.instances.map Prod.fst).toFinset ×ˢ
            (tf :: m.connectors.map ConnectorInfo.from_field).toFinset) := by
      intro k hk
      obtain ⟨s, hs, hkk⟩ := List.mem_map.mp (List.mem_toFinset.mp hk)
      obtain ⟨hinst, f, hout, hkey, hf⟩ := hok s hs
      refine Finset.mem_image.mpr ⟨(s.instance_name, f), ?_, by rw [← hkk, hkey]⟩
      refine Finset.mem_product.mpr ⟨List.mem_toFinset.mpr hinst, ?_⟩
      rw [List.mem_toFinset]
      rcases hf with h | h
      · rw [h]
        exact List.mem_cons_self _ _
      · obtain ⟨p, hp, hpf⟩ := List.mem_map.mp h
        have hp2 := gPairs_build_subset m.connectors p hp
        obtain ⟨c, hc, hcp⟩ := List.mem_map.mp hp2
        refine List.mem_cons_of_mem _ ?_
        rw [← hpf, ← hcp]
        exact List.mem_map_of_mem _ hc
    have hbound := le_trans (Finset.card_le_card hsubimg)
      (le_trans (Finset.card_image_le)
        (le_of_eq (Finset.card_product _ _)))
    rw [hlen, ← hcard]
    calc (steps.map stepKey).toFinset.card
        ≤ (m.instances.map Prod.fst).toFinset.card *
            (tf :: m.connectors.map ConnectorInfo.from_field).toFinset.card :=
          hbound
      _ = (m.instances.map Prod.fst).dedup.length *
            (tf :: m.connectors.map ConnectorInfo.from_field).dedup.length := by
          rw [List.card_toFinset, List.card_toFinset]
  · intro extra
    set g := buildInstanceGraph m.connectors with hg
    set U : List String := visitKey ti tf ::
      m.connectors.map (fun c => visitKey c.from_instance c.from_field)
      with hUdef
    have hU : ∀ k ∈ gKeys g, k ∈ U := by
      intro k hk
      obtain ⟨p, hp, hpk⟩ := List.mem_map.mp hk
      have hp2 := gPairs_build_subset m.connectors p hp
      obtain ⟨c, hc, hcp⟩ := List.mem_map.mp hp2
      refine List.mem_cons_of_mem _ ?_
      rw [← hpk, ← hcp]
      exact List.mem_map_of_mem _ hc
    have hn : (U.toFinset \ ([] : List String).toFinset).card ≤
        m.connectors.length + 1 := by
      have h1 : (U.toFinset \ ([] : List String).toFinset).card ≤
          U.toFinset.card := Finset.card_le_card (Finset.sdiff_subset)
      have h2 : U.toFinset.card ≤ U.length := List.toFinset_card_le U
      have h3 : U.length = m.connectors.length + 1 := by
        rw [hUdef]
        simp
      omega
    exact congrArg Prod.fst (traceAux_stable fo m g U hU
      (m.connectors.length + 1)
      (defaultTraceFuel m + extra) (defaultTraceFuel m) ti tf [] 0
      (List.mem_cons_self _ _) hn
      (by rw [defaultTraceFuel]; omega) (by rw [defaultTraceFuel]; omega))

end InfaLineage

/-! # Claim C2: the topological sequencer (`_get_transformation_order`) -/

namespace InfaLineage

/-- `(p, n)` is an edge of the instance graph that
`_get_transformation_order` sequences: some connector runs from `p` to `n`
and both of its endpoints are instances of the mapping. -/
def isEdge (m : MappingInfo) (p n : String) : Prop :=
  ∃ c ∈ m.connectors, c.from_instance = p ∧ c.to_instance = n ∧
    (assocGet c.from_instance m.instances).isSome ∧
    (assocGet c.to_instance m.instances).isSome

/-- The instance graph has no directed cycle. -/
def Acyclic (m : MappingInfo) : Prop :=
  ∀ n, ¬ Relation.TransGen (isEdge m) n n

theorem assocGet_isSome_of_mem {α : Type} {k : String} {l : List (String × α)}
    (h : k ∈ l.map Prod.fst) : (assocGet k l).isSome := by
  induction l with
  | nil => simp at h
  | cons hd tl ih =>
      obtain ⟨k', v⟩ := hd
      by_cases hk : k' = k
      · simp [assocGet, hk]
      · simp only [List.map_cons, List.mem_cons] at h
        rcases h with h | h
        · exact absurd h.symm hk
        · simpa [assocGet, hk] using ih h

theorem assocGet_of_mem_nodup {α : Type} {k : String} {v : α}
    {l : List (String × α)} (hnd : (l.map Prod.fst).Nodup)
    (h : (k, v) ∈ l) : assocGet k l = some v := by
  induction l with
  | nil => cases h
  | cons hd tl ih =>
      obtain ⟨k', v'⟩ := hd
      simp only [List.map_cons, List.nodup_cons] at hnd
      rcases List.mem_cons.mp h with h | h
      · cases h
        simp [assocGet]
      · have hk : k' ≠ k := by
          intro hkk
          have : k' ∈ tl.map Prod.fst := by
            rw [hkk]
            exact List.mem_map_of_mem Prod.fst h
          exact hnd.1 this
        simp [assocGet, hk, ih hnd.2 h]

theorem setAdd_nodup {l : List String} (h : l.Nodup) (x : String) :
    (setAdd l x).Nodup := by
  rw [setAdd]
  by_cases hx : x ∈ l
  · simpa [hx]
  · simp [hx, List.nodup_append, h]

theorem assocModify_keys {α : Type} (k : String) (f : α → α)
    (l : List (String × α)) :
    (assocModify k f l).map Prod.fst = l.map Prod.fst := by
  induction l with
  | nil => rfl
  | cons hd tl ih =>
      obtain ⟨k', v⟩ := hd
      by_cases h : k' = k
      · simp [assocModify, h]
      · simp [assocModify, h, ih]

theorem incFold_keys (m : MappingInfo) (cs : List ConnectorInfo) :
    ∀ acc : List (String × List String),
      (cs.foldl (incStep m) acc).map Prod.fst = acc.map Prod.fst := by
  induction cs with
  | nil => intro acc; rfl
  | cons c cs ih =>
      intro acc
      rw [List.foldl_cons, ih, incStep]
      by_cases h : (assocGet c.from_instance m.instances).isSome ∧
          (assocGet c.to_instance m.instances).isSome
      · rw [if_pos h, assocModify_keys]
      · rw [if_neg h]

theorem outFold_keys (m : MappingInfo) (cs : List ConnectorInfo) :
    ∀ acc : List (String × List String),
      (cs.foldl (outStep m) acc).map Prod.fst = acc.map Prod.fst := by
  induction cs with
  | nil => intro acc; rfl
  | cons c cs ih =>
      intro acc
      rw [List.foldl_cons, ih, outStep]
      by_cases h : (assocGet c.from_instance m.instances).isSome ∧
          (assocGet c.to_instance m.instances).isSome
      · rw [if_pos h, assocModify_keys]
      · rw [if_neg h]

theorem buildIncoming_keys (m : MappingInfo) :
    (buildIncoming m).map Prod.fst = instanceNames m := by
  rw [buildIncoming, incFold_keys]
  simp [List.map_map, Function.comp_def]

theorem buildOutgoing_keys (m : MappingInfo) :
    (buildOutgoing m).map Prod.fst = instanceNames m := by
  rw [buildOutgoing, outFold_keys]
  simp [List.map_map, Function.comp_def]

theorem assocGet_const_init (names : List String) (n : String)
    {l : List String}
    (h : assocGet n (names.map (fun x => (x, ([] : List String)))) = some l) :
    l = [] := by
  induction names with
  | nil => cases h
  | cons a ns ih =>
      rw [List.map_cons] at h
      by_cases ha : a = n
      · simp only [assocGet, if_pos ha] at h
        exact (Option.some.inj h).symm
      · simp only [assocGet, if_neg ha] at h
        exact ih h

theorem incFold_val (m : MappingInfo) (cs : List ConnectorInfo) :
    ∀ (n : String) (l : List String),
      assocGet n (cs.foldl (incStep m)
          ((instanceNames m).map (fun x => (x, [])))) = some l →
      l.Nodup ∧ ∀ p, (p ∈ l ↔ ∃ c ∈ cs, c.from_instance = p ∧
        c.to_instance = n ∧ (assocGet c.from_instance m.instances).isSome ∧
        (assocGet c.to_instance m.instances).isSome) := by
  induction cs using List.reverseRecOn with
  | nil =>
      intro n l h
      have hl : l = [] := assocGet_const_init _ _ h
      subst hl
      exact ⟨List.nodup_nil, fun p => by simp⟩
  | append_singleton cs c ih =>
      intro n l h
      rw [List.foldl_append, List.foldl_cons, List.foldl_nil, incStep] at h
      by_cases hc : (assocGet c.from_instance m.instances).isSome ∧
          (assocGet c.to_instance m.instances).isSome
      · rw [if_pos hc] at h
        by_cases hn : c.to_instance = n
        · subst hn
          rw [assocGet_assocModify_self] at h
          cases hg : assocGet c.to_instance
              (cs.foldl (incStep m)
                ((instanceNames m).map (fun x => (x, [])))) with
          | none => rw [hg] at h; cases h
          | some l0 =>
              rw [hg] at h
              have hl : l = setAdd l0 c.from_instance :=
                (Option.some.inj h).symm
              obtain ⟨h0nd, h0mem⟩ := ih c.to_instance l0 hg
              subst hl
              refine ⟨setAdd_nodup h0nd _, fun p => ?_⟩
              rw [mem_setAdd]
              constructor
              · rintro (hp | rfl)
                · obtain ⟨c', hc', rest⟩ := (h0mem p).mp hp
                  exact ⟨c', List.mem_append_left _ hc', rest⟩
                · exact ⟨c, List.mem_append_right _ (List.mem_singleton_self c),
                    rfl, rfl, hc.1, hc.2⟩
              · rintro ⟨c', hc', hf, ht, hs1, hs2⟩
                rcases List.mem_append.mp hc' with hin | hone
                · exact Or.inl ((h0mem p).mpr ⟨c', hin, hf, ht, hs1, hs2⟩)
                · rw [List.mem_singleton] at hone
                  subst hone
                  exact Or.inr hf.symm
        · rw [assocGet_assocModify_ne _ _ hn] at h
          obtain ⟨h0nd, h0mem⟩ := ih n l h
          refine ⟨h0nd, fun p => ?_⟩
          rw [h0mem p]
          constructor
          · rintro ⟨c', hc', rest⟩
            exact ⟨c', List.mem_append_left _ hc', rest⟩
          · rintro ⟨c', hc', hf, ht, hs1, hs2⟩
            rcases List.mem_append.mp hc' with hin | hone
            · exact ⟨c', hin, hf, ht, hs1, hs2⟩
            · rw [List.mem_singleton] at hone
              subst hone
              exact absurd ht hn
      · rw [if_neg hc] at h
        obtain ⟨h0nd, h0mem⟩ := ih n l h
        refine ⟨h0nd, fun p => ?_⟩
        rw [h0mem p]
        constructor
        · rintro ⟨c', hc', rest⟩
          exact ⟨c', List.mem_append_left _ hc', rest⟩
        · rintro ⟨c', hc', hf, ht, hs1, hs2⟩
          rcases List.mem_append.mp hc' with hin | hone
          · exact ⟨c', hin, hf, ht, hs1, hs2⟩
          · rw [List.mem_singleton] at hone
            subst hone
            exact absurd ⟨hs1, hs2⟩ hc

theorem outFold_val (m : MappingInfo) (cs : List ConnectorInfo) :
    ∀ (p : String) (l : List String),
      assocGet p (cs.foldl (outStep m)
          ((instanceNames m).map (fun x => (x, [])))) = some l →
      l.Nodup ∧ ∀ n, (n ∈ l ↔ ∃ c ∈ cs, c.from_instance = p ∧
        c.to_instance = n ∧ (assocGet c.from_instance m.instances).isSome ∧
        (assocGet c.to_instance m.instances).isSome) := by
  induction cs using List.reverseRecOn with
  | nil =>
      intro p l h
      have hl : l = [] := assocGet_const_init _ _ h
      subst hl
      exact ⟨List.nodup_nil, fun n => by simp⟩
  | append_singleton cs c ih =>
      intro p l h
      rw [List.foldl_append, List.foldl_cons, List.foldl_nil, outStep] at h
      by_cases hc : (assocGet c.from_instance m.instances).isSome ∧
          (assocGet c.to_instance m.instances).isSome
      · rw [if_pos hc] at h
        by_cases hp : c.from_instance = p
        · subst hp
          rw [assocGet_assocModify_self] at h
          cases hg : assocGet c.from_instance
              (cs.foldl (outStep m)
                ((instanceNames m).map (fun x => (x, [])))) with
          | none => rw [hg] at h; cases h
          | some l0 =>
              rw [hg] at h
              have hl : l = setAdd l0 c.to_instance :=
                (Option.some.inj h).symm
              obtain ⟨h0nd, h0mem⟩ := ih c.from_instance l0 hg
              subst hl
              refine ⟨setAdd_nodup h0nd _, fun n => ?_⟩
              rw [mem_setAdd]
              constructor
              · rintro (hn | rfl)
                · obtain ⟨c', hc', rest⟩ := (h0mem n).mp hn
                  exact ⟨c', List.mem_append_left _ hc', rest⟩
                · exact ⟨c, List.mem_append_right _ (List.mem_singleton_self c),
                    rfl, rfl, hc.1, hc.2⟩
              · rintro ⟨c', hc', hf, ht, hs1, hs2⟩
                rcases List.mem_append.mp hc' with hin | hone
                · exact Or.inl ((h0mem n).mpr ⟨c', hin, hf, ht, hs1, hs2⟩)
                · rw [List.mem_singleton] at hone
                  subst hone
                  exact Or.inr ht.symm
        · rw [assocGet_assocModify_ne _ _ hp] at h
          obtain ⟨h0nd, h0mem⟩ := ih p l h
          refine ⟨h0nd, fun n => ?_⟩
          rw [h0mem n]
          constructor
          · rintro ⟨c', hc', rest⟩
            exact ⟨c', List.mem_append_left _ hc', rest⟩
          · rintro ⟨c', hc', hf, ht, hs1, hs2⟩
            rcases List.mem_append.mp hc' with hin | hone
            · exact ⟨c', hin, hf, ht, hs1, hs2⟩
            · rw [List.mem_singleton] at hone
              subst hone
              exact absurd hf hp
      · rw [if_neg hc] at h
        obtain ⟨h0nd, h0mem⟩ := ih p l h
        refine ⟨h0nd, fun n => ?_⟩
        rw [h0mem n]
        constructor
        · rintro ⟨c', hc', rest⟩
          exact ⟨c', List.mem_append_left _ hc', rest⟩
        · rintro ⟨c', hc', hf, ht, hs1, hs2⟩
          rcases List.mem_append.mp hc' with hin | hone
          · exact ⟨c', hin, hf, ht, hs1, hs2⟩
          · rw [List.mem_singleton] at hone
            subst hone
            exact absurd ⟨hs1, hs2⟩ hc

theorem buildIncoming_val (m : MappingInfo) {n : String} {l : List String}
    (h : assocGet n (buildIncoming m) = some l) :
    l.Nodup ∧ ∀ p, (p ∈ l ↔ isEdge m p n) := by
  rw [buildIncoming] at h
  obtain ⟨hnd, hmem⟩ := incFold_val m m.connectors n l h
  exact ⟨hnd, fun p => by rw [hmem p, isEdge]⟩

theorem buildOutgoing_val (m : MappingInfo) {p : String} {l : List String}
    (h : assocGet p (buildOutgoing m) = some l) :
    l.Nodup ∧ ∀ n, (n ∈ l ↔ isEdge m p n) := by
  rw [buildOutgoing] at h
  obtain ⟨hnd, hmem⟩ := outFold_val m m.connectors p l h
  exact ⟨hnd, fun n => by rw [hmem n, isEdge]⟩

theorem isEdge_from_mem {m : MappingInfo} {p n : String} (h : isEdge m p n) :
    p ∈ instanceNames m := by
  obtain ⟨c, _, hf, _, hs, _⟩ := h
  rw [hf] at hs
  obtain ⟨v, hv⟩ := Option.isSome_iff_exists.mp hs
  exact assocGet_isSome_mem hv

theorem isEdge_to_mem {m : MappingInfo} {p n : String} (h : isEdge m p n) :
    n ∈ instanceNames m := by
  obtain ⟨c, _, _, ht, _, hs⟩ := h
  rw [ht] at hs
  obtain ⟨v, hv⟩ := Option.isSome_iff_exists.mp hs
  exact assocGet_isSome_mem hv

theorem discardStep_fst (node : String)
    (s : List (String × List String) × List String) (nxt : String) :
    (discardStep node s nxt).1 =
      assocModify nxt (fun l => l.erase node) s.1 := by
  rw [discardStep]
  by_cases h : ((assocGet nxt
      (assocModify nxt (fun l => l.erase node) s.1)).getD []).isEmpty
  · simp only [if_pos h]
  · simp only [if_neg h]

theorem discardStep_snd (node : String)
    (s : List (String × List String) × List String) (nxt : String) :
    (discardStep node s nxt).2 =
      if ((((assocGet nxt s.1).getD []).erase node)).isEmpty
      then s.2 ++ [nxt] else s.2 := by
  simp only [discardStep, assocGet_assocModify_self]
  cases h : assocGet nxt s.1 with
  | none => simp
  | some l =>
      simp only [Option.getD_some, Option.map_some']
      split <;> rfl

theorem discardFold_spec (node : String) :
    ∀ (nbrs : List String) (inc : List (String × List String))
      (q : List String), nbrs.Nodup →
      (nbrs.foldl (discardStep node) (inc, q)).1.map Prod.fst =
          inc.map Prod.fst ∧
      (∀ x, assocGet x (nbrs.foldl (discardStep node) (inc, q)).1 =
        if x ∈ nbrs then (assocGet x inc).map (fun l => l.erase node)
        else assocGet x inc) ∧
      (nbrs.foldl (discardStep node) (inc, q)).2 =
        q ++ nbrs.filter
          (fun nxt => ((((assocGet nxt inc).getD []).erase node)).isEmpty) := by
  intro nbrs
  induction nbrs with
  | nil =>
      intro inc q _
      exact ⟨rfl, fun x => by simp, by simp⟩
  | cons nx rest ih =>
      intro inc q hnd
      rw [List.nodup_cons] at hnd
      rw [List.foldl_cons]
      have hpair : discardStep node (inc, q) nx =
          (assocModify nx (fun l => l.erase node) inc,
           if ((((assocGet nx inc).getD []).erase node)).isEmpty
           then q ++ [nx] else q) := by
        rw [Prod.ext_iff]
        exact ⟨discardStep_fst node (inc, q) nx, discardStep_snd node (inc, q) nx⟩
      rw [hpair]
      obtain ⟨ihk, ihg, ihq⟩ :=
        ih (assocModify nx (fun l => l.erase node) inc)
          (if ((((assocGet nx inc).getD []).erase node)).isEmpty
           then q ++ [nx] else q) hnd.2
      refine ⟨?_, ?_, ?_⟩
      · rw [ihk, assocModify_keys]
      · intro x
        rw [ihg x]
        by_cases hxr : x ∈ rest
        · rw [if_pos hxr, if_pos (List.mem_cons_of_mem _ hxr)]
          have hxn : nx ≠ x := by
            intro h
            exact hnd.1 (by rw [h]; exact hxr)
          rw [assocGet_assocModify_ne _ _ hxn]
        · by_cases hxn : x = nx
          · subst hxn
            rw [if_neg hxr, if_pos (List.mem_cons_self _ _),
              assocGet_assocModify_self]
          · rw [if_neg hxr,
              if_neg (by simp only [List.mem_cons]; push_neg; exact ⟨hxn, hxr⟩),
              assocGet_assocModify_ne _ _ (fun h => hxn h.symm)]
      · rw [ihq]
        have hfc : List.filter
            (fun nxt => ((((assocGet nxt
              (assocModify nx (fun l => l.erase node) inc)).getD
                []).erase node)).isEmpty) rest =
            List.filter
              (fun nxt => ((((assocGet nxt inc).getD []).erase node)).isEmpty)
              rest := by
          apply List.filter_congr
          intro x hx
          have hxn : nx ≠ x := by
            intro h
            exact hnd.1 (by rw [h]; exact hx)
          rw [assocGet_assocModify_ne _ _ hxn]
        rw [hfc, List.filter_cons]
        by_cases hc : ((((assocGet nx inc).getD []).erase node)).isEmpty = true
        · rw [if_pos hc, if_pos hc, List.append_assoc, List.singleton_append]
        · rw [if_neg hc, if_neg hc]

/-- Invariant of the Kahn loop state: `inc` is keyed by the instance names
and records, per node, exactly its not-yet-emitted predecessors; emitted
and queued nodes are distinct instances; a node whose pending-predecessor
set is empty has been scheduled; a queued node has every predecessor
already emitted; and the emitted prefix respects the edge order. -/
def KahnInv (m : MappingInfo) (inc : List (String × List String))
    (queue result : List String) : Prop :=
  inc.map Prod.fst = instanceNames m ∧
  (∀ n l, assocGet n inc = some l → l.Nodup ∧
    ∀ p, (p ∈ l ↔ isEdge m p n ∧ p ∉ result)) ∧
  (result ++ queue).Nodup ∧
  (∀ x ∈ result ++ queue, x ∈ instanceNames m) ∧
  (∀ n l, assocGet n inc = some l → l = [] → n ∈ result ++ queue) ∧
  (∀ n ∈ queue, ∀ p, isEdge m p n → p ∈ result) ∧
  (∀ r1 n r2, result = r1 ++ n :: r2 → ∀ p, isEdge m p n → p ∈ r1)

theorem nodup_subset_length {l names : List String} (hnd : l.Nodup)
    (hsub : ∀ x ∈ l, x ∈ names) : l.length ≤ names.length := by
  calc l.length = l.toFinset.card := (List.toFinset_card_of_nodup hnd).symm
    _ ≤ names.toFinset.card := Finset.card_le_card
        (fun x hx => List.mem_toFinset.mpr (hsub x (List.mem_toFinset.mp hx)))
    _ ≤ names.length := names.toFinset_card_le

theorem kahnInv_final (m : MappingInfo)
    (inc : List (String × List String)) (result : List String)
    (hinv : KahnInv m inc [] result) :
    result.Nodup ∧ (∀ x ∈ result, x ∈ instanceNames m) ∧
    (∀ r1 n r2, result = r1 ++ n :: r2 → ∀ p, isEdge m p n → p ∈ r1) ∧
    (∀ n ∈ instanceNames m, n ∉ result → ∃ p, isEdge m p n ∧ p ∉ result) := by
  obtain ⟨hkeys, hval, hnd, hmem, hempty, _, horder⟩ := hinv
  rw [List.append_nil] at hnd hmem
  refine ⟨hnd, hmem, horder, fun n hn hnr => ?_⟩
  have hsome : (assocGet n inc).isSome :=
    assocGet_isSome_of_mem (by rw [hkeys]; exact hn)
  obtain ⟨l, hl⟩ := Option.isSome_iff_exists.mp hsome
  cases l with
  | nil => exact absurd (by simpa using hempty n [] hl rfl) hnr
  | cons p l' =>
      obtain ⟨he, hpr⟩ := ((hval n _ hl).2 p).mp (List.mem_cons_self _ _)
      exact ⟨p, he, hpr⟩

theorem append_singleton_cases {α : Type} {res r1 r2 : List α} {x n : α}
    (h : res ++ [x] = r1 ++ n :: r2) :
    (∃ r2', res = r1 ++ n :: r2' ∧ r2 = r2' ++ [x]) ∨
      (r1 = res ∧ n = x ∧ r2 = []) := by
  rcases r2.eq_nil_or_concat with rfl | ⟨r2', y, rfl⟩
  · right
    obtain ⟨h1, h2⟩ := List.append_inj' h rfl
    refine ⟨h1.symm, ?_, rfl⟩
    injection h2 with h2 _
    exact h2.symm
  · left
    have hconc : r2'.concat y = r2' ++ [y] := List.concat_eq_append r2' y
    rw [hconc] at h ⊢
    rw [show r1 ++ n :: (r2' ++ [y]) = (r1 ++ n :: r2') ++ [y] by
      rw [List.append_assoc, List.cons_append]] at h
    obtain ⟨h1, h2⟩ := List.append_inj' h rfl
    injection h2 with h2 _
    subst h2
    exact ⟨r2', h1, rfl⟩

theorem kahnInv_step (m : MappingInfo)
    (inc inc' : List (String × List String)) (result rest : List String)
    (node : String) (nl A : List String)
    (hinv : KahnInv m inc (node :: rest) result)
    (hnl_nd : nl.Nodup) (hnl_iff : ∀ x, x ∈ nl ↔ isEdge m node x)
    (hk : inc'.map Prod.fst = inc.map Prod.fst)
    (hg : ∀ x, assocGet x inc' =
      if x ∈ nl then (assocGet x inc).map (fun l => l.erase node)
      else assocGet x inc)
    (hA : A = nl.filter
      (fun nxt => ((((assocGet nxt inc).getD []).erase node)).isEmpty)) :
    KahnInv m inc' (rest ++ A) (result ++ [node]) := by
  obtain ⟨hkeys, hval, hnd, hmem, hempty, hqueue, horder⟩ := hinv
  have hnode_names : node ∈ instanceNames m :=
    hmem node (List.mem_append_right _ (List.mem_cons_self _ _))
  have hdisj : result.Disjoint (node :: rest) := (List.nodup_append.mp hnd).2.2
  have hnode_not_res : node ∉ result := fun h => hdisj h (List.mem_cons_self _ _)
  have hA_sub : ∀ a ∈ A, a ∈ nl := by
    intro a ha
    rw [hA] at ha
    exact (List.mem_filter.mp ha).1
  have hA_edge : ∀ a ∈ A, isEdge m node a :=
    fun a ha => (hnl_iff a).mp (hA_sub a ha)
  have hA_fresh : ∀ a ∈ A, a ∉ result ++ node :: rest := by
    intro a ha hmem'
    have hedge := hA_edge a ha
    rcases List.mem_append.mp hmem' with hres | hq
    · obtain ⟨r1, r2, hsplit⟩ := List.append_of_mem hres
      have hin := horder r1 a r2 hsplit node hedge
      exact hnode_not_res (by rw [hsplit]; exact List.mem_append_left _ hin)
    · exact hnode_not_res (hqueue a hq node hedge)
  refine ⟨?_, ?_, ?_, ?_, ?_, ?_, ?_⟩
  · rw [hk, hkeys]
  · intro n l' hget'
    rw [hg n] at hget'
    by_cases hn : n ∈ nl
    · rw [if_pos hn] at hget'
      cases hget0 : assocGet n inc with
      | none => rw [hget0] at hget'; cases hget'
      | some l =>
          rw [hget0, Option.map_some'] at hget'
          have hl' : l' = l.erase node := (Option.some.inj hget').symm
          obtain ⟨hlnd, hlmem⟩ := hval n l hget0
          subst hl'
          refine ⟨List.Nodup.erase node hlnd, fun p => ?_⟩
          rw [List.Nodup.mem_erase_iff hlnd, hlmem p]
          constructor
          · rintro ⟨hpn, he, hpr⟩
            refine ⟨he, fun hp => ?_⟩
            rcases List.mem_append.mp hp with hp | hp
            · exact hpr hp
            · exact hpn (List.mem_singleton.mp hp)
          · rintro ⟨he, hpr⟩
            refine ⟨fun hpn => hpr ?_, he, fun hp => hpr (List.mem_append_left _ hp)⟩
            rw [hpn]
            exact List.mem_append_right _ (List.mem_singleton_self _)
    · rw [if_neg hn] at hget'
      obtain ⟨hlnd, hlmem⟩ := hval n l' hget'
      refine ⟨hlnd, fun p => ?_⟩
      rw [hlmem p]
      constructor
      · rintro ⟨he, hpr⟩
        refine ⟨he, fun hp => ?_⟩
        rcases List.mem_append.mp hp with hp | hp
        · exact hpr hp
        · have hpn := List.mem_singleton.mp hp
          exact hn ((hnl_iff n).mpr (by rw [← hpn]; exact he))
      · rintro ⟨he, hpr⟩
        exact ⟨he, fun hp => hpr (List.mem_append_left _ hp)⟩
  · have heq : (result ++ [node]) ++ (rest ++ A) =
        (result ++ node :: rest) ++ A := by
      simp
    rw [heq, List.nodup_append]
    refine ⟨hnd, ?_, ?_⟩
    · rw [hA]
      exact List.Nodup.filter _ hnl_nd
    · intro a ha haA
      exact hA_fresh a haA ha
  · intro x hx
    rcases List.mem_append.mp hx with hx | hx
    · rcases List.mem_append.mp hx with hx | hx
      · exact hmem x (List.mem_append_left _ hx)
      · rw [List.mem_singleton.mp hx]
        exact hnode_names
    · rcases List.mem_append.mp hx with hx | hx
      · exact hmem x (List.mem_append_right _ (List.mem_cons_of_mem _ hx))
      · exact isEdge_to_mem (hA_edge x hx)
  · intro n l' hget' hl'
    subst hl'
    rw [hg n] at hget'
    by_cases hn : n ∈ nl
    · rw [if_pos hn] at hget'
      cases hget0 : assocGet n inc with
      | none => rw [hget0] at hget'; cases hget'
      | some l =>
          rw [hget0, Option.map_some'] at hget'
          have hl : l.erase node = [] := Option.some.inj hget'
          refine List.mem_append_right _ (List.mem_append_right _ ?_)
          rw [hA]
          refine List.mem_filter.mpr ⟨hn, ?_⟩
          simp [hget0, hl]
    · rw [if_neg hn] at hget'
      have hsch := hempty n [] hget' rfl
      rcases List.mem_append.mp hsch with hx | hx
      · exact List.mem_append_left _ (List.mem_append_left _ hx)
      · rcases List.mem_cons.mp hx with hx | hx
        · rw [hx]
          exact List.mem_append_left _
            (List.mem_append_right _ (List.mem_singleton_self _))
        · exact List.mem_append_right _ (List.mem_append_left _ hx)
  · intro n hnq p hedge
    rcases List.mem_append.mp hnq with hnr | hnA
    · exact List.mem_append_left _
        (hqueue n (List.mem_cons_of_mem _ hnr) p hedge)
    · by_cases hpres : p ∈ result
      · exact List.mem_append_left _ hpres
      · have hn_names : n ∈ instanceNames m := isEdge_to_mem hedge
        have hsome : (assocGet n inc).isSome :=
          assocGet_isSome_of_mem (by rw [hkeys]; exact hn_names)
        obtain ⟨l, hl⟩ := Option.isSome_iff_exists.mp hsome
        obtain ⟨hlnd, hlmem⟩ := hval n l hl
        have hpl : p ∈ l := (hlmem p).mpr ⟨hedge, hpres⟩
        have hnA' : n ∈ nl.filter
            (fun nxt => ((((assocGet nxt inc).getD []).erase node)).isEmpty) := by
          rw [← hA]
          exact hnA
        have hcond := (List.mem_filter.mp hnA').2
        have herase : l.erase node = [] := by
          simp only [hl, Option.getD_some] at hcond
          exact List.isEmpty_iff.mp hcond
        by_cases hpn : p = node
        · rw [hpn]
          exact List.mem_append_right _ (List.mem_singleton_self _)
        · exfalso
          have hmem2 : p ∈ l.erase node :=
            (List.Nodup.mem_erase_iff hlnd).mpr ⟨hpn, hpl⟩
          rw [herase] at hmem2
          cases hmem2
  · intro r1 n r2 hsplit p hedge
    rcases append_singleton_cases hsplit with ⟨r2', hres, _⟩ | ⟨hr1, hn, _⟩
    · exact horder r1 n r2' hres p hedge
    · rw [hr1]
      rw [hn] at hedge
      exact hqueue node (List.mem_cons_self _ _) p hedge

theorem kahnLoop_spec (m : MappingInfo) :
    ∀ (fuel : Nat) (inc : List (String × List String))
      (queue result : List String),
      KahnInv m inc queue result →
      (instanceNames m).length - result.length ≤ fuel →
      ∃ res : List String,
        (∀ fuel', (instanceNames m).length - result.length ≤ fuel' →
          kahnLoop (buildOutgoing m) fuel' inc queue result = (res, [])) ∧
        res.Nodup ∧ (∀ x ∈ res, x ∈ instanceNames m) ∧
        (∀ x ∈ result, x ∈ res) ∧
        (∀ r1 n r2, res = r1 ++ n :: r2 → ∀ p, isEdge m p n → p ∈ r1) ∧
        (∀ n ∈ instanceNames m, n ∉ res → ∃ p, isEdge m p n ∧ p ∉ res) := by
  intro fuel
  induction fuel with
  | zero =>
      intro inc queue result hinv hbud
      have hq : queue = [] := by
        have hnd := hinv.2.2.1
        have hmem := hinv.2.2.2.1
        have hlen : result.length + queue.length ≤ (instanceNames m).length := by
          simpa using nodup_subset_length hnd hmem
        have : queue.length = 0 := by omega
        exact List.length_eq_zero.mp this
      subst hq
      obtain ⟨h1, h2, h3, h4⟩ := kahnInv_final m inc result hinv
      refine ⟨result, ?_, h1, h2, fun x hx => hx, h3, h4⟩
      intro fuel' _
      cases fuel' with
      | zero => rfl
      | succ f => rfl
  | succ fuel ih =>
      intro inc queue result hinv hbud
      cases queue with
      | nil =>
          obtain ⟨h1, h2, h3, h4⟩ := kahnInv_final m inc result hinv
          refine ⟨result, ?_, h1, h2, fun x hx => hx, h3, h4⟩
          intro fuel' _
          cases fuel' with
          | zero => rfl
          | succ f => rfl
      | cons node rest =>
          have hnd : (result ++ node :: rest).Nodup := hinv.2.2.1
          have hmem := hinv.2.2.2.1
          have hnode_names : node ∈ instanceNames m :=
            hmem node (List.mem_append_right _ (List.mem_cons_self _ _))
          obtain ⟨nl, hnl⟩ := Option.isSome_iff_exists.mp
            (assocGet_isSome_of_mem
              (by rw [buildOutgoing_keys]; exact hnode_names))
          obtain ⟨hnl_nd, hnl_iff⟩ := buildOutgoing_val m hnl
          obtain ⟨hfk, hfg, hfq⟩ := discardFold_spec node nl inc rest hnl_nd
          have hinv' := kahnInv_step m inc
            (nl.foldl (discardStep node) (inc, rest)).1 result rest node nl _
            hinv hnl_nd hnl_iff hfk hfg rfl
          have hlen : result.length + (node :: rest).length ≤
              (instanceNames m).length := by
            simpa using nodup_subset_length hnd hmem
          simp only [List.length_cons] at hlen
          have hbud' : (instanceNames m).length -
              (result ++ [node]).length ≤ fuel := by
            simp only [List.length_append, List.length_singleton]
            omega
          rw [← hfq] at hinv'
          obtain ⟨res, hrun, hresnd, hresmem, hresmono, hresord, hrescomp⟩ :=
            ih (nl.foldl (discardStep node) (inc, rest)).1
              (nl.foldl (discardStep node) (inc, rest)).2
              (result ++ [node]) hinv' hbud'
          refine ⟨res, ?_,
            hresnd, hresmem,
            fun x hx => hresmono x (List.mem_append_left _ hx),
            hresord, hrescomp⟩
          intro fuel' hbf
          cases fuel' with
          | zero =>
              exfalso
              omega
          | succ f =>
              simp only [kahnLoop, hnl, Option.getD_some]
              have hb : (instanceNames m).length -
                  (result ++ [node]).length ≤ f := by
                simp only [List.length_append, List.length_singleton]
                omega
              exact hrun f hb

theorem emptyKeys_sublist {α : Type} (l : List (String × List α)) :
    List.Sublist
      (l.filterMap (fun nd => if nd.2.isEmpty then some nd.1 else none))
      (l.map Prod.fst) := by
  induction l with
  | nil => simp
  | cons hd tl ih =>
      rw [List.filterMap_cons, List.map_cons]
      by_cases h : hd.2.isEmpty
      · simp only [if_pos h]
        exact List.Sublist.cons₂ _ ih
      · simp only [if_neg h]
        exact List.Sublist.cons _ ih

theorem kahnInv_init (m : MappingInfo) (hnames : (instanceNames m).Nodup) :
    KahnInv m (buildIncoming m)
      ((buildIncoming m).filterMap
        (fun nd => if nd.2.isEmpty then some nd.1 else none)) [] := by
  have hkeysnd : ((buildIncoming m).map Prod.fst).Nodup := by
    rw [buildIncoming_keys]
    exact hnames
  have hsub := emptyKeys_sublist (buildIncoming m)
  refine ⟨buildIncoming_keys m, ?_, ?_, ?_, ?_, ?_, ?_⟩
  · intro n l hget
    obtain ⟨hlnd, hlmem⟩ := buildIncoming_val m hget
    exact ⟨hlnd, fun p => by rw [hlmem p]; simp⟩
  · rw [List.nil_append]
    exact List.Nodup.sublist hsub hkeysnd
  · intro x hx
    rw [List.nil_append] at hx
    rw [← buildIncoming_keys m]
    exact hsub.subset hx
  · intro n l hget hl
    subst hl
    rw [List.nil_append]
    refine List.mem_filterMap.mpr ⟨(n, []), assocGet_mem hget, ?_⟩
    simp
  · intro n hn p hedge
    obtain ⟨nd, hnd_mem, hnd_eq⟩ := List.mem_filterMap.mp hn
    by_cases hv : nd.2.isEmpty
    · rw [if_pos hv] at hnd_eq
      have hk : nd.1 = n := Option.some.inj hnd_eq
      have hv' : nd.2 = [] := List.isEmpty_iff.mp hv
      have hget : assocGet n (buildIncoming m) = some [] := by
        rw [← hk, ← hv']
        exact assocGet_of_mem_nodup hkeysnd hnd_mem
      obtain ⟨_, hlmem⟩ := buildIncoming_val m hget
      exact (hlmem p).mpr hedge
    · rw [if_neg hv] at hnd_eq
      cases hnd_eq
  · intro r1 n r2 hsplit
    exact absurd hsplit.symm (by simp)

theorem kahnMain_spec (m : MappingInfo) (hnames : (instanceNames m).Nodup) :
    (∀ extra, kahnLoop (buildOutgoing m) ((instanceNames m).length + extra)
        (buildIncoming m)
        ((buildIncoming m).filterMap
          (fun nd => if nd.2.isEmpty then some nd.1 else none)) [] =
        (kahnMain m, [])) ∧
    (kahnMain m).Nodup ∧ (∀ x ∈ kahnMain m, x ∈ instanceNames m) ∧
    (∀ r1 n r2, kahnMain m = r1 ++ n :: r2 → ∀ p, isEdge m p n → p ∈ r1) ∧
    (∀ n ∈ instanceNames m, n ∉ kahnMain m →
      ∃ p, isEdge m p n ∧ p ∉ kahnMain m) := by
  obtain ⟨res, hrun, hresnd, hresmem, _, hresord, hrescomp⟩ :=
    kahnLoop_spec m (instanceNames m).length (buildIncoming m)
      ((buildIncoming m).filterMap
        (fun nd => if nd.2.isEmpty then some nd.1 else none)) []
      (kahnInv_init m hnames) (by simp)
  have hmain : kahnMain m = res := by
    simp only [kahnMain]
    rw [hrun (instanceNames m).length (by simp)]
  rw [hmain]
  refine ⟨fun extra => ?_, hresnd, hresmem, hresord, hrescomp⟩
  rw [hrun ((instanceNames m).length + extra) (by simp)]

theorem residual_fold :
    ∀ (names r : List String), names.Nodup →
      names.foldl (fun acc n => if n ∈ acc then acc else acc ++ [n]) r =
        r ++ names.filter (fun n => decide (n ∉ r)) := by
  intro names
  induction names with
  | nil => intro r _; simp
  | cons n ns ih =>
      intro r hnd
      rw [List.nodup_cons] at hnd
      rw [List.foldl_cons, List.filter_cons]
      by_cases hmem : n ∈ r
      · rw [if_pos hmem, if_neg (by simp [hmem])]
        exact ih r hnd.2
      · rw [if_neg hmem, if_pos (by simp [hmem]), ih (r ++ [n]) hnd.2,
          List.append_assoc, List.singleton_append]
        congr 2
        apply List.filter_congr
        intro x hx
        have hxn : x ≠ n := by
          intro h
          exact hnd.1 (by rw [← h]; exact hx)
        rw [decide_eq_decide]
        simp [List.mem_append, hxn]

theorem acyclic_complete (m : MappingInfo) (hnames : (instanceNames m).Nodup)
    (hacyc : Acyclic m) : ∀ n ∈ instanceNames m, n ∈ kahnMain m := by
  by_contra hcon
  push_neg at hcon
  obtain ⟨n0, hn0, hn0m⟩ := hcon
  obtain ⟨_, _, _, _, hcomp⟩ := kahnMain_spec m hnames
  have hS : ∀ n ∈ (instanceNames m).filter
      (fun x => decide (x ∉ kahnMain m)),
      ∃ p ∈ (instanceNames m).filter (fun x => decide (x ∉ kahnMain m)),
        isEdge m p n := by
    intro n hn
    obtain ⟨hn1, hn2⟩ := List.mem_filter.mp hn
    obtain ⟨p, hpe, hpm⟩ := hcomp n hn1 (of_decide_eq_true hn2)
    exact ⟨p, List.mem_filter.mpr
      ⟨isEdge_from_mem hpe, decide_eq_true hpm⟩, hpe⟩
  have hn0S : n0 ∈ (instanceNames m).filter
      (fun x => decide (x ∉ kahnMain m)) :=
    List.mem_filter.mpr ⟨hn0, decide_eq_true hn0m⟩
  have hstep : ∀ t : {x // x ∈ (instanceNames m).filter
      (fun x => decide (x ∉ kahnMain m))},
      ∃ t' : {x // x ∈ (instanceNames m).filter
        (fun x => decide (x ∉ kahnMain m))}, isEdge m t'.1 t.1 := by
    intro t
    obtain ⟨p, hpS, hpe⟩ := hS t.1 t.2
    exact ⟨⟨p, hpS⟩, hpe⟩
  choose g hg using hstep
  obtain ⟨i, j, hij, hseq⟩ :=
    Finite.exists_ne_map_eq_of_infinite (fun k : ℕ => g^[k] ⟨n0, hn0S⟩)
  have hchain : ∀ (d k : ℕ),
      Relation.TransGen (isEdge m)
        ((g^[k + d + 1] ⟨n0, hn0S⟩).1) ((g^[k] ⟨n0, hn0S⟩).1) := by
    intro d
    induction d with
    | zero =>
        intro k
        simp only [Nat.add_zero]
        rw [Function.iterate_succ_apply']
        exact Relation.TransGen.single (hg _)
    | succ d ihd =>
        intro k
        have hiter : g^[k + (d + 1) + 1] ⟨n0, hn0S⟩ =
            g (g^[k + d + 1] ⟨n0, hn0S⟩) := by
          rw [show k + (d + 1) + 1 = (k + d + 1) + 1 by omega,
            Function.iterate_succ_apply']
        rw [hiter]
        exact Relation.TransGen.head (hg _) (ihd k)
  rcases Nat.lt_or_ge i j with hlt | hge
  · have hcyc := hchain (j - i - 1) i
    rw [show i + (j - i - 1) + 1 = j by omega] at hcyc
    rw [← hseq] at hcyc
    exact hacyc _ hcyc
  · have hlt : j < i := by omega
    have hcyc := hchain (i - j - 1) j
    rw [show j + (i - j - 1) + 1 = i by omega] at hcyc
    rw [hseq] at hcyc
    exact hacyc _ hcyc

/-- A three-instance mapping whose connectors form the cycle
`A → B → C → A`. -/
def cyclicMapping : MappingInfo :=
  { name := "m_CYCLE"
    instances :=
      [("A", { name := "A", transformation_name := "A",
               transformation_type := TransformationType.EXPRESSION }),
       ("B", { name := "B", transformation_name := "B",
               transformation_type := TransformationType.EXPRESSION }),
       ("C", { name := "C", transformation_name := "C",
               transformation_type := TransformationType.EXPRESSION })]
    connectors :=
      [{ from_instance := "A", from_instance_type := "Expression",
         from_field := "X", to_instance := "B",
         to_instance_type := "Expression", to_field := "X" },
       { from_instance := "B", from_instance_type := "Expression",
         from_field := "X", to_instance := "C",
         to_instance_type := "Expression", to_field := "X" },
       { from_instance := "C", from_instance_type := "Expression",
         from_field := "X", to_instance := "A",
         to_instance_type := "Expression", to_field := "X" }]
    transformations := [] }

/-- **C2.** `_get_transformation_order` returns every instance exactly
once: its result is a permutation of the instance names.  The result is
the Kahn output followed by the residual (cycle-locked) instances in
their original insertion order; the Kahn `while` loop always drains its
queue within `|instances|` iterations (any larger fuel yields the
identical final state, so there is no infinite loop).  For an acyclic
instance graph, every connector's source instance appears before its
target instance in the returned order. -/
theorem C2_topological_sequencing (m : MappingInfo)
    (hnames : (instanceNames m).Nodup) :
    (getTransformationOrder m).Perm (instanceNames m) ∧
    getTransformationOrder m =
      kahnMain m ++ (instanceNames m).filter
        (fun n => decide (n ∉ kahnMain m)) ∧
    (∀ extra, kahnLoop (buildOutgoing m) ((instanceNames m).length + extra)
        (buildIncoming m)
        ((buildIncoming m).filterMap
          (fun nd => if nd.2.isEmpty then some nd.1 else none)) [] =
        (kahnMain m, [])) ∧
    (Acyclic m → ∀ c ∈ m.connectors,
      (assocGet c.from_instance m.instances).isSome →
      (assocGet c.to_instance m.instances).isSome →
      List.Sublist [c.from_instance, c.to_instance]
        (getTransformationOrder m)) := by
  obtain ⟨hstab, hknd, hkmem, hkord, _⟩ := kahnMain_spec m hnames
  have hres : getTransformationOrder m =
      kahnMain m ++ (instanceNames m).filter
        (fun n => decide (n ∉ kahnMain m)) := by
    rw [getTransformationOrder]
    exact residual_fold (instanceNames m) (kahnMain m) hnames
  refine ⟨?_, hres, hstab, ?_⟩
  · rw [hres]
    have hnd : (kahnMain m ++ (instanceNames m).filter
        (fun n => decide (n ∉ kahnMain m))).Nodup := by
      rw [List.nodup_append]
      refine ⟨hknd, List.Nodup.filter _ hnames, ?_⟩
      intro a ha haf
      exact (of_decide_eq_true (List.mem_filter.mp haf).2) ha
    rw [List.perm_ext_iff_of_nodup hnd hnames]
    intro a
    constructor
    · intro ha
      rcases List.mem_append.mp ha with ha | ha
      · exact hkmem a ha
      · exact (List.mem_filter.mp ha).1
    · intro ha
      by_cases hak : a ∈ kahnMain m
      · exact List.mem_append_left _ hak
      · exact List.mem_append_right _
          (List.mem_filter.mpr ⟨ha, decide_eq_true hak⟩)
  · intro hacyc c hc hs1 hs2
    have hedge : isEdge m c.from_instance c.to_instance :=
      ⟨c, hc, rfl, rfl, hs1, hs2⟩
    have hfilter : (instanceNames m).filter
        (fun n => decide (n ∉ kahnMain m)) = [] := by
      rw [List.filter_eq_nil_iff]
      intro a ha hd
      exact (of_decide_eq_true hd) (acyclic_complete m hnames hacyc a ha)
    have hfinal : getTransformationOrder m = kahnMain m := by
      rw [hres, hfilter, List.append_nil]
    rw [hfinal]
    have hto : c.to_instance ∈ kahnMain m :=
      acyclic_complete m hnames hacyc _ (isEdge_to_mem hedge)
    obtain ⟨r1, r2, hsplit⟩ := List.append_of_mem hto
    have hfrom : c.from_instance ∈ r1 := hkord r1 _ r2 hsplit _ hedge
    rw [hsplit]
    exact List.Sublist.append (List.singleton_sublist.mpr hfrom)
      (List.Sublist.cons₂ _ (List.nil_sublist r2))

/-- Witness for C2 at the 3-cycle `A → B → C → A`: the duplicate-free
hypothesis is discharged concretely and the sequencer output is a
permutation of the three instances, so no node is lost or repeated even
on a fully cyclic graph. -/
theorem C2_topological_sequencing_witness :
    (instanceNames cyclicMapping).Nodup ∧
    (getTransformationOrder cyclicMapping).Perm
      (instanceNames cyclicMapping) :=
  ⟨by decide, (C2_topological_sequencing cyclicMapping (by decide)).1⟩

end InfaLineage
